import Mathlib

/-!
Verification of the `flux_ecs` entity/component storage and query engine
(crates/flux_ecs) against its natural-language specification.

The Rust sources are shallowly embedded: hash maps become association lists,
`Vec` becomes `List`, raw byte buffers become lists of per-row byte blocks
(one block is the `size`-byte region a row occupies), machine integers become
`Nat` with an explicit `% 2 ^ 32` where wrap-around matters, and operations
that can hit a fatal assertion or panic return `Option` (with `none` meaning
the operation aborts).
-/

namespace FluxEcs

/-- Lookup in an association list (the embedding of `HashMap::get`). -/
def alookup {κ ν : Type} [DecidableEq κ] : List (κ × ν) → κ → Option ν
  | [], _ => none
  | (k, v) :: rest, k' => if k = k' then some v else alookup rest k'

/-- Key removal in an association list (the embedding of `HashMap::remove`). -/
def aerase {κ ν : Type} [DecidableEq κ] (l : List (κ × ν)) (k : κ) : List (κ × ν) :=
  l.filter (fun p => !decide (p.1 = k))

/-- Insert-or-replace in an association list (the embedding of `HashMap::insert`). -/
def ainsert {κ ν : Type} [DecidableEq κ] (l : List (κ × ν)) (k : κ) (v : ν) : List (κ × ν) :=
  (k, v) :: aerase l k

/-! ## `ComponentColumn` (src/crates/flux_ecs/src/archetype.rs)

A column is a type-erased buffer of `length` elements of `size` bytes each.
We embed the buffer at row granularity: `rows` lists, for each logical row in
`0..length`, the `size`-byte block the row occupies (`ptr_at` arithmetic).
Capacity and the uninitialized bytes beyond `length * size` are not observable
through `push` / `swap_remove` / in-bounds `ptr_at` and are not modelled. -/

structure ComponentColumn where
  size : Nat
  rows : List (List Nat)
deriving DecidableEq, Repr

namespace ComponentColumn

/-- `ComponentColumn::push`: copies one `size`-byte block into the next slot
and bumps the length (growth only changes capacity, which is not modelled). -/
def push (c : ComponentColumn) (value : List Nat) : ComponentColumn :=
  { c with rows := c.rows ++ [value] }

/-- `ComponentColumn::swap_remove`: asserts `index < length` (`none` = fatal
assertion); if `index` is not the last row, the last row's bytes are copied
over row `index`; then the length shrinks by one. -/
def swap_remove (c : ComponentColumn) (index : Nat) : Option ComponentColumn :=
  if index < c.rows.length then
    let last_index := c.rows.length - 1
    let rows1 :=
      if index ≠ last_index then c.rows.set index (c.rows.getD last_index []) else c.rows
    some { c with rows := rows1.dropLast }
  else
    none

end ComponentColumn

namespace Mgr

/-! ## `ArchetypeManager` (src/crates/flux_ecs/src/archetype.rs)

The manager keyed by `ComponentSet` that records an `EntityLocation`
(component set, row index) per live entity.  Entities are embedded as their
`Nat` index, the two hash maps as association lists. -/

/-- `ComponentSet`: a growable bit vector of component ids. -/
structure ComponentSet where
  bits : List Bool
deriving DecidableEq, Repr

/-- `ComponentSet::new`. -/
def ComponentSet.new : ComponentSet := ⟨[]⟩

/-- `ComponentSet::insert`: resizes to `id + 1` bits when `id` is out of
range, then sets bit `id`. -/
def ComponentSet.insert (s : ComponentSet) (id : Nat) : ComponentSet :=
  let bits1 :=
    if s.bits.length ≤ id then s.bits ++ List.replicate (id + 1 - s.bits.length) false
    else s.bits
  ⟨bits1.set id true⟩

/-- `ComponentSet::contains`. -/
def ComponentSet.contains (s : ComponentSet) (id : Nat) : Bool :=
  decide (id < s.bits.length) && s.bits.getD id false

/-- `ComponentInfo` as the old manager uses it: id plus layout data. -/
structure ComponentInfo where
  id : Nat
  size : Nat
  align : Nat
deriving DecidableEq, Repr

/-- `Archetype` (archetype.rs): parallel `types`/`columns` plus the entity
list; row `i` spans every column and the entity list simultaneously. -/
structure Archetype where
  types : List ComponentInfo
  columns : List ComponentColumn
  entities : List Nat
  component_set : ComponentSet
deriving DecidableEq, Repr

/-- `Archetype::new`: one empty column per component type (capacity is not
modelled). -/
def Archetype.new (types : List ComponentInfo) (_initial_capacity : Nat) : Archetype :=
  { types := types
    columns := types.map (fun ti => { size := ti.size, rows := [] })
    entities := []
    component_set := types.foldl (fun s ti => s.insert ti.id) ComponentSet.new }

/-- `Archetype::insert`: asserts the component count matches the type count
(`none` = failed assertion), pushes each component's bytes into the column it
is zipped with, then appends the entity handle. -/
def Archetype.insert (a : Archetype) (entity : Nat) (components : List (List Nat × Nat)) :
    Option Archetype :=
  if components.length = a.types.length then
    some { a with
      columns := List.zipWith (fun (c : List Nat × Nat) col => col.push c.1) components a.columns
      entities := a.entities ++ [entity] }
  else
    none

/-- `Archetype::remove`: when `index` is the last row, every column simply
shrinks by one and the entity list pops; otherwise the last entity is moved
into `index`, every column swap-removes `index`, and the entity list pops.
`none` embeds the panics (`len - 1` underflow on an empty archetype, an
out-of-bounds `index`, or a column whose length disagrees). -/
def Archetype.remove (a : Archetype) (index : Nat) : Option Archetype :=
  if a.entities.length = 0 then none
  else
    let last_index := a.entities.length - 1
    if index = last_index then
      some { a with
        columns := a.columns.map (fun col => { col with rows := col.rows.dropLast })
        entities := a.entities.dropLast }
    else if index < last_index then
      match a.columns.mapM (fun col => col.swap_remove index) with
      | none => none
      | some cols =>
        some { a with
          columns := cols
          entities := (a.entities.set index (a.entities.getD last_index 0)).dropLast }
    else none

/-- `ArchetypeManager`: archetypes keyed by component set, plus the
`EntityLocation` map (entity ↦ (component set, row)). -/
structure ArchetypeManager where
  archetypes : List (ComponentSet × Archetype)
  entity_locations : List (Nat × (ComponentSet × Nat))
deriving DecidableEq, Repr

/-- `ArchetypeManager::new`. -/
def ArchetypeManager.new : ArchetypeManager := ⟨[], []⟩

/-- The loop in `get_or_create_archetype` that collects `ComponentInfo` for
every id the set contains; `none` embeds the `expect("Component not
registered")` panic.  The registry is `ComponentRegistry.infos`, dense by id. -/
def collectTypes (registry : List ComponentInfo) (cs : ComponentSet) :
    List Nat → Option (List ComponentInfo)
  | [] => some []
  | i :: rest =>
    if cs.contains i then
      match registry[i]? with
      | none => none
      | some info => (collectTypes registry cs rest).map (fun ts => info :: ts)
    else collectTypes registry cs rest

/-- `ArchetypeManager::get_or_create_archetype`. -/
def ArchetypeManager.get_or_create_archetype (m : ArchetypeManager) (cs : ComponentSet)
    (registry : List ComponentInfo) : Option (ArchetypeManager × Archetype) :=
  match alookup m.archetypes cs with
  | some a => some (m, a)
  | none =>
    match collectTypes registry cs (List.range cs.bits.length) with
    | none => none
    | some types =>
      let a := Archetype.new types 64
      some ({ m with archetypes := ainsert m.archetypes cs a }, a)

/-- `ArchetypeManager::insert`: inserts into the (created-on-demand)
archetype and records the entity's location as (set, len - 1). -/
def ArchetypeManager.insert (m : ArchetypeManager) (entity : Nat) (cs : ComponentSet)
    (components : List (List Nat × Nat)) (registry : List ComponentInfo) :
    Option ArchetypeManager :=
  match ArchetypeManager.get_or_create_archetype m cs registry with
  | none => none
  | some (m1, a) =>
    match Archetype.insert a entity components with
    | none => none
    | some a1 =>
      some { archetypes := ainsert m1.archetypes cs a1
             entity_locations := ainsert m1.entity_locations entity (cs, a1.entities.length - 1) }

/-- `ArchetypeManager::remove_entity`: removes the entity's location (no-op
when absent), removes its row, and when a different entity was swapped into
that row, patches that entity's location. -/
def ArchetypeManager.remove_entity (m : ArchetypeManager) (entity : Nat) :
    Option ArchetypeManager :=
  match alookup m.entity_locations entity with
  | none => some m
  | some (cs, index) =>
    let locs := aerase m.entity_locations entity
    match alookup m.archetypes cs with
    | none => some { m with entity_locations := locs }
    | some a =>
      match Archetype.remove a index with
      | none => none
      | some a1 =>
        if index < a1.entities.length then
          some { archetypes := ainsert m.archetypes cs a1
                 entity_locations := ainsert locs (a1.entities.getD index 0) (cs, index) }
        else
          some { archetypes := ainsert m.archetypes cs a1, entity_locations := locs }

/-- One world-facing operation: spawn / add-component both go through
`ArchetypeManager::insert` (a structural change re-inserts the entity with
its new component set), destruction through `remove_entity`. -/
inductive Op where
  | insert (entity : Nat) (cs : ComponentSet) (components : List (List Nat × Nat))
  | remove (entity : Nat)
deriving DecidableEq, Repr

def applyOp (registry : List ComponentInfo) (m : ArchetypeManager) : Op → Option ArchetypeManager
  | .insert e cs comps => ArchetypeManager.insert m e cs comps registry
  | .remove e => ArchetypeManager.remove_entity m e

def applyOps (registry : List ComponentInfo) (m : ArchetypeManager) :
    List Op → Option ArchetypeManager
  | [] => some m
  | op :: rest =>
    match applyOp registry m op with
    | none => none
    | some m1 => applyOps registry m1 rest

/-- The entity-location consistency invariant: every recorded location names
an existing archetype whose entity list holds exactly that entity at that
row. -/
def LocOk (m : ArchetypeManager) : Prop :=
  ∀ e cs i, alookup m.entity_locations e = some (cs, i) →
    ∃ a, alookup m.archetypes cs = some a ∧ a.entities[i]? = some e

/-- Concrete registry, component set, bytes and op prefix used by the
concrete instances below (one 4-byte component with id 0). -/
def reg10 : List ComponentInfo := [⟨0, 4, 4⟩]

def set10 : ComponentSet := ComponentSet.new.insert 0

def data10 : List (List Nat × Nat) := [([7, 7, 7, 7], 0)]

/-- Insert entity 1, insert entity 2 twice (leaving a stale duplicate row for
entity 2), then remove entity 1 (whose swap-remove patch re-points entity 2 at
row 0 while its stale copy still occupies the last row). -/
def base10 : List Op :=
  [.insert 1 set10 data10, .insert 2 set10 data10, .insert 2 set10 data10, .remove 1]

end Mgr

namespace Graph

/-! ## `ArchetypeGraph` (src/crates/flux_ecs/src/archetype_graph.rs)

`get_or_create_archetype` sorts the requested component ids, memoizes
signature → `ArchetypeId`, and for a fresh signature recursively ensures every
one-component-smaller archetype exists, recording forward add-edges and
backward remove-edges.  The Rust recursion terminates because each recursive
call drops one element; the embedding makes that explicit with a fuel
parameter (`none` = fuel exhausted, shown unreachable for fuel >
`components.length`). -/

/-- `components.sort()`: ids are plain naturals, so any comparison sort gives
the same result; insertion sort is the embedding. -/
def sortIds (l : List Nat) : List Nat := List.insertionSort (· ≤ ·) l

structure ArchetypeGraph where
  by_signature : List (List Nat × Nat)
  signatures : List (List Nat)
  add_component_edges : List ((Nat × Nat) × Nat)
  remove_component_edges : List ((Nat × Nat) × Nat)
deriving DecidableEq, Repr

def ArchetypeGraph.empty : ArchetypeGraph := ⟨[], [], [], []⟩

/-- The edge-recording loop of `get_or_create_archetype`: for each index `i`
of the sorted signature, recursively resolve the archetype for the signature
with element `i` removed, then record the forward and backward edges.  `f` is
the recursive entry point (`gocF fuel`). -/
def gocEdgesGo (f : ArchetypeGraph → List Nat → Option (ArchetypeGraph × Nat))
    (new_id : Nat) (signature : List Nat) :
    List Nat → ArchetypeGraph → Option ArchetypeGraph
  | [], g => some g
  | i :: rest, g =>
    match f g (signature.eraseIdx i) with
    | none => none
    | some (g2, smaller_id) =>
      gocEdgesGo f new_id signature rest
        { g2 with
          add_component_edges :=
            ainsert g2.add_component_edges (smaller_id, signature.getD i 0) new_id
          remove_component_edges :=
            ainsert g2.remove_component_edges (new_id, signature.getD i 0) smaller_id }

/-- `ArchetypeGraph::get_or_create_archetype`, fueled. -/
def gocF : Nat → ArchetypeGraph → List Nat → Option (ArchetypeGraph × Nat)
  | 0, _, _ => none
  | fuel + 1, g, components =>
    let signature := sortIds components
    match alookup g.by_signature signature with
    | some id => some (g, id)
    | none =>
      let new_id := g.signatures.length
      let g1 : ArchetypeGraph :=
        { g with
          by_signature := ainsert g.by_signature signature new_id
          signatures := g.signatures ++ [signature] }
      match gocEdgesGo (gocF fuel) new_id signature (List.range signature.length) g1 with
      | none => none
      | some g2 => some (g2, new_id)

/-- `get_or_create_archetype` proper: fuel `length + 1` always suffices
(`gocF_total`), so the `getD` default is never taken. -/
def get_or_create_archetype (g : ArchetypeGraph) (components : List Nat) :
    ArchetypeGraph × Nat :=
  (gocF (components.length + 1) g components).getD (g, 0)

/-- `ArchetypeGraph::get_add_edge`. -/
def get_add_edge (g : ArchetypeGraph) (start : Nat) (component : Nat) : Option Nat :=
  alookup g.add_component_edges (start, component)

/-- Established signature → id bindings survive any later call (the map is
only ever extended at keys that were absent). -/
def BySigMono (g g' : ArchetypeGraph) : Prop :=
  ∀ s v, alookup g.by_signature s = some v → alookup g'.by_signature s = some v

/-- Coherence of the signature memo: `by_signature` and `signatures` are
inverse views of each other, and every stored signature is sorted. -/
structure SigOk (g : ArchetypeGraph) : Prop where
  lookup_getElem : ∀ s i, alookup g.by_signature s = some i → g.signatures[i]? = some s
  getElem_lookup : ∀ i s, g.signatures[i]? = some s → alookup g.by_signature s = some i
  sorted : ∀ s ∈ g.signatures, s.Sorted (· ≤ ·)

/-- Edge soundness: every recorded add-edge (and, symmetrically, remove-edge)
`(smaller, c) ↦ bigger` relates two stored signatures with
`bigger-signature = sort (c :: smaller-signature)`. -/
structure EdgeOk (g : ArchetypeGraph) : Prop where
  add_sound : ∀ sid c tid, alookup g.add_component_edges ((sid, c)) = some tid →
    ∃ ssig tsig, g.signatures[sid]? = some ssig ∧ g.signatures[tid]? = some tsig ∧
      tsig = sortIds (c :: ssig)
  rem_sound : ∀ tid c sid, alookup g.remove_component_edges ((tid, c)) = some sid →
    ∃ ssig tsig, g.signatures[sid]? = some ssig ∧ g.signatures[tid]? = some tsig ∧
      tsig = sortIds (c :: ssig)

/-- Everything already recorded in the graph survives further calls. -/
structure GMono (g g' : ArchetypeGraph) : Prop where
  bysig : ∀ s v, alookup g.by_signature s = some v → alookup g'.by_signature s = some v
  sigs : ∀ (i : Nat) (s : List Nat), g.signatures[i]? = some s → g'.signatures[i]? = some s
  add : ∀ k v, alookup g.add_component_edges k = some v →
    alookup g'.add_component_edges k = some v
  rem : ∀ k v, alookup g.remove_component_edges k = some v →
    alookup g'.remove_component_edges k = some v

/-- The C4 edge property for one archetype: for every position `i` of its
sorted signature, the one-smaller archetype exists and the forward / backward
edges keyed by the `i`-th component are recorded. -/
def EdgesComplete (g : ArchetypeGraph) (id : Nat) (sig : List Nat) : Prop :=
  ∀ i, (h : i < sig.length) → ∃ sid,
    alookup g.by_signature (sig.eraseIdx i) = some sid ∧
    alookup g.add_component_edges ((sid, sig.get ⟨i, h⟩)) = some id ∧
    alookup g.remove_component_edges ((id, sig.get ⟨i, h⟩)) = some sid

/-- The induction statement for `gocF`: a successful call preserves the
invariants, only extends the graph, and every archetype it allocates comes
out with its full set of add / remove edges. -/
def GocSpec (fuel : Nat) : Prop :=
  ∀ g cs g' id, SigOk g → EdgeOk g → gocF fuel g cs = some (g', id) →
    SigOk g' ∧ EdgeOk g' ∧ GMono g g' ∧
    (∀ nid nsig, g.signatures.length ≤ nid → g'.signatures[nid]? = some nsig →
      EdgesComplete g' nid nsig)

/-- A sequence of `get_or_create_archetype` calls. -/
def applyCalls : ArchetypeGraph → List (List Nat) → ArchetypeGraph
  | g, [] => g
  | g, cs :: rest => applyCalls (get_or_create_archetype g cs).1 rest

/-- Every stored archetype has its complete edge set. -/
def Complete (g : ArchetypeGraph) : Prop :=
  ∀ id sig, g.signatures[id]? = some sig → EdgesComplete g id sig

/-- Reachability from the empty-signature archetype along forward add-edges. -/
inductive ReachesFromEmpty (g : ArchetypeGraph) : Nat → Prop where
  | base (i : Nat) : alookup g.by_signature [] = some i → ReachesFromEmpty g i
  | step (i c j : Nat) : ReachesFromEmpty g i →
      alookup g.add_component_edges ((i, c)) = some j → ReachesFromEmpty g j

end Graph

namespace Store

/-! ## `Archetypes::move_entity` split borrow (src/crates/flux_ecs/src/archetypes.rs)

The selection of the two archetypes: `split_at_mut` at
`max(source, target)`, then indexing the source slice at the source identity
and the target slice at 0 (or symmetrically).  The embedding computes which
storage elements the two `&mut` borrows denote; `none` embeds the panics
(`split_at_mut` past the end, slice index out of bounds). -/

/-- `slice::split_at_mut`: panics when `mid > len`. -/
def split_at {α : Type} (l : List α) (mid : Nat) : Option (List α × List α) :=
  if mid ≤ l.length then some (l.take mid, l.drop mid) else none

/-- The borrow-selection logic of `Archetypes::move_entity` (the
`split_at_mut(max ..)` plus the two slice indexings); returns the pair
(source archetype, target archetype) of storage elements it borrows. -/
def move_entity_select {α : Type} (storage : List α) (source_id target_id : Nat) :
    Option (α × α) :=
  match split_at storage (max source_id target_id) with
  | none => none
  | some (source_slice, target_slice) =>
    if source_id < target_id then
      match source_slice[source_id]?, target_slice[0]? with
      | some a, some b => some (a, b)
      | _, _ => none
    else
      match target_slice[0]?, source_slice[target_id]? with
      | some a, some b => some (a, b)
      | _, _ => none

end Store

namespace Ent

/-! ## `EntityManager` (src/crates/flux_ecs/src/entity.rs)

`spawn` hands out `Entity { index: next_index }` and increments the `u32`
counter; the increment is embedded with the release-mode wrap-around
`% 2 ^ 32`. -/

structure Entity where
  index : Nat
deriving DecidableEq, Repr

structure EntityManager where
  next_index : Nat
deriving DecidableEq, Repr

def EntityManager.new : EntityManager := ⟨0⟩

/-- `EntityManager::spawn`: returns the current index and increments the
`u32` counter (wrapping at `2 ^ 32`). -/
def EntityManager.spawn (m : EntityManager) : EntityManager × Entity :=
  (⟨(m.next_index + 1) % 2 ^ 32⟩, ⟨m.next_index⟩)

/-- The manager state after `n` spawns from a fresh manager. -/
def stateAfter : Nat → EntityManager
  | 0 => EntityManager.new
  | n + 1 => ((stateAfter n).spawn).1

/-- The index issued by spawn number `n` (0-based). -/
def issuedIndex (n : Nat) : Nat := ((stateAfter n).spawn).2.index

end Ent

namespace Sched

/-! ## Scheduler, command queue and function systems
(src/crates/flux_ecs/src/system/systems.rs, world.rs, commands/mod.rs,
system/function_system.rs)

Resources are embedded as an association list id ↦ value; `CreateResource`
(the only `Command` implementor in the crate) inserts a resource and enqueues
nothing, so `World::flush_commands`' while-loop takes the queue exactly once
and executes every command in FIFO order.  A function system's
parameter-fetch plus user body is embedded as `body : World → Except String
(World × List Command)`: on success `apply_buffers` appends the buffered
commands to the world's queue; on failure `FunctionSystem::run` panics with
the system's name and the error — the panic is embedded as an
`Except.error` carrying both, which aborts the remainder of `Systems::run`. -/

inductive Command where
  | create_resource (id : Nat) (value : Nat)
deriving DecidableEq, Repr

structure World where
  resources : List (Nat × Nat)
  command_queue : List Command
deriving DecidableEq, Repr

/-- `CreateResource::execute` = `world.insert_resource`. -/
def Command.execute : Command → World → World
  | .create_resource i v, w => { w with resources := ainsert w.resources i v }

/-- `World::flush_commands`: while the queue is nonempty, take the whole
queue and execute each command in FIFO order.  No command enqueues further
commands, so the loop body runs at most once. -/
def World.flush_commands (w : World) : World :=
  if w.command_queue.isEmpty then w
  else
    (w.command_queue.foldl (fun acc c => Command.execute c acc)
      { w with command_queue := [] })

structure SysError where
  name : String
  message : String
deriving DecidableEq, Repr

/-- A function system: its reported name, whether `state` is `Some`
(initialized), and the parameter-fetch + user-body step. -/
structure FunctionSystem where
  name : String
  state_initialized : Bool
  body : World → Except String (World × List Command)

/-- `FunctionSystem::initialize` (no-op when the state already exists). -/
def FunctionSystem.setup (s : FunctionSystem) : FunctionSystem :=
  if s.state_initialized then s else { s with state_initialized := true }

/-- `FunctionSystem::run`: initialize if needed, fetch parameters and run the
user body; an error panics with the system's name and message (aborting the
caller); on success `apply_buffers` pushes the buffered commands onto the
world's queue in order. -/
def FunctionSystem.run (s : FunctionSystem) (w : World) :
    FunctionSystem × Except SysError World :=
  let s1 := FunctionSystem.setup s
  match s1.body w with
  | .error e => (s1, .error ⟨s1.name, e⟩)
  | .ok (w1, cmds) => (s1, .ok { w1 with command_queue := w1.command_queue ++ cmds })

inductive CommandFlushTechnique where
  | after_each
  | after_all
deriving DecidableEq, Repr

/-- `#[default]` sits on `AfterAll`. -/
def default_flush_technique : CommandFlushTechnique := .after_all

/-- The `for system in &mut self.systems` loop of `Systems::run`, with the
conditional per-system flush; a panic aborts the loop, leaving the remaining
systems untouched. -/
def runLoop (t : CommandFlushTechnique) :
    List FunctionSystem → World → List FunctionSystem × Except SysError World
  | [], w => ([], .ok w)
  | s :: rest, w =>
    match FunctionSystem.run s w with
    | (s1, .error e) => (s1 :: rest, .error e)
    | (s1, .ok w1) =>
      let w2 := if t = .after_each then World.flush_commands w1 else w1
      let (rest1, r) := runLoop t rest w2
      (s1 :: rest1, r)

/-- `Systems::run`: the loop, then the trailing flush for `AfterAll` (skipped
when a panic unwound out of the loop). -/
def Systems.run (t : CommandFlushTechnique) (systems : List FunctionSystem) (w : World) :
    List FunctionSystem × Except SysError World :=
  match runLoop t systems w with
  | (systems1, .ok w1) =>
    (systems1, .ok (if t = .after_all then World.flush_commands w1 else w1))
  | r => r

/-- Specification shape for `AfterEach`: run the systems in list order,
draining the queue after each successful system run. -/
def runEachSpec : List FunctionSystem → World → List FunctionSystem × Except SysError World
  | [], w => ([], .ok w)
  | s :: rest, w =>
    match FunctionSystem.run s w with
    | (s1, .error e) => (s1 :: rest, .error e)
    | (s1, .ok w1) =>
      let (rest1, r) := runEachSpec rest (World.flush_commands w1)
      (s1 :: rest1, r)

/-- Plain sequential run with no intermediate flush. -/
def runPlain : List FunctionSystem → World → List FunctionSystem × Except SysError World
  | [], w => ([], .ok w)
  | s :: rest, w =>
    match FunctionSystem.run s w with
    | (s1, .error e) => (s1 :: rest, .error e)
    | (s1, .ok w1) =>
      let (rest1, r) := runPlain rest w1
      (s1 :: rest1, r)

/-- Specification shape for `AfterAll`: run all systems in list order, then
drain the queue once. -/
def runAllSpec (systems : List FunctionSystem) (w : World) :
    List FunctionSystem × Except SysError World :=
  match runPlain systems w with
  | (systems1, .ok w1) => (systems1, .ok (World.flush_commands w1))
  | r => r

/-- Draining a queue over a resource map: execute every command in FIFO
order. -/
def drainSpec (q : List Command) (res : List (Nat × Nat)) : List (Nat × Nat) :=
  q.foldl (fun acc c => match c with | .create_resource i v => ainsert acc i v) res

end Sched

/-- The failing system used by the C8 instances. -/
def errSys : Sched.FunctionSystem :=
  ⟨"failing-system", false, fun _ => .error "boom"⟩

/-- A second system that would insert resource 7 if it ever ran. -/
def okSys : Sched.FunctionSystem :=
  ⟨"second-system", false, fun w => .ok (w, [Sched.Command.create_resource 7 42])⟩

namespace Query

/-! ## Query engine (src/crates/flux_ecs/src/query.rs)

`QueryState::new` snapshots the matching archetype ids by filtering the
archetype store; `QueryIter::next` walks those ids, building one fetch per
archetype and yielding one item per row.

The storage-side `Archetype` type these functions consume is code of this
repository that is not under the provided sources (only its callers are), so
it is modelled from the spec (§3 data model, §4.3): an archetype is
{identity, signature, columns for exactly the signature's components, entity
list}; `has_component` tests the signature, and resolving a fetch succeeds
iff every required column is present. -/

/-- Modelled from the spec: the storage `Archetype` (missing from src/) —
"{identity, Signature, map ComponentId → Column, ordered list of Entity}"
with `has_component(id) -> bool` and `len()`.  Only the fields the query
engine reads are modelled; a column exists for exactly the signature's
components. -/
structure Archetype where
  id : Nat
  components : List Nat
  entities : List Nat
deriving DecidableEq, Repr

/-- Modelled from the spec: `Archetype::has_component`. -/
def Archetype.has_component (a : Archetype) (c : Nat) : Bool := decide (c ∈ a.components)

/-- Modelled from the spec: `Archetype::len` (rows = entity-list length). -/
def Archetype.len (a : Archetype) : Nat := a.entities.length

/-- The archetype store (`Archetypes.storage`), indexed by `ArchetypeId`. -/
structure World where
  archetypes : List Archetype
deriving DecidableEq, Repr

/-- `QueryState::new`: intersect the required component ids against each
archetype's component set, walking the store in order, and record the
matching archetype identities. -/
def QueryState.new (w : World) (required : List Nat) : List Nat :=
  (w.archetypes.filter (fun a => required.all (fun c => a.has_component c))).map Archetype.id

/-- Modelled from the spec: `new_fetch` for a tuple of component references —
resolves the column base pointers, succeeding iff every required column is
present (§4.6: the query "simply skips an archetype missing a required
column"); the fetch is abstracted as the archetype identity the column
pointers belong to, and `fetch f row` yields the item `(f, row)`. -/
def new_fetch (required : List Nat) (a : Archetype) : Option Nat :=
  if required.all (fun c => a.has_component c) then some a.id else none

/-- `QueryIter::next` iterated to exhaustion: yields `(fetch, row)` while
`row_index < current_archetype_len`; otherwise advances to the next matching
id, looks the archetype up by index in the store (`none` embeds the
`expect("Archetype not found")` panic), re-fetches, and resets the row/length
only when the fetch succeeded — exactly the loop in the source.  The
remaining-ids list stands in for `archetype_index`, which the code only ever
increments. -/
def drain (w : World) (required : List Nat) :
    (remaining : List Nat) → (fetch : Option Nat) → (len : Nat) → (row : Nat) →
    Option (List (Nat × Nat))
  | remaining, some f, len, row =>
    if row < len then
      (drain w required remaining (some f) len (row + 1)).map
        (fun items => (f, row) :: items)
    else
      match remaining with
      | [] => some []
      | id :: rest =>
        match w.archetypes[id]? with
        | none => none
        | some a =>
          let f1 := new_fetch required a
          if f1.isSome then drain w required rest f1 a.len 0
          else drain w required rest f1 len row
  | remaining, none, len, row =>
    match remaining with
    | [] => some []
    | id :: rest =>
      match w.archetypes[id]? with
      | none => none
      | some a =>
        let f1 := new_fetch required a
        if f1.isSome then drain w required rest f1 a.len 0
        else drain w required rest f1 len row
termination_by remaining _fetch len row => (remaining.length, len - row)

/-- Construct the query state, then iterate to exhaustion. -/
def queryItems (w : World) (required : List Nat) : Option (List (Nat × Nat)) :=
  drain w required (QueryState.new w required) none 0 0

/-- The rows a single archetype id contributes. -/
def archRows (w : World) (id : Nat) : List (Nat × Nat) :=
  match w.archetypes[id]? with
  | some a => (List.range a.entities.length).map (fun r => (id, r))
  | none => []

/-- The specified result: one item per row of exactly the matching
archetypes, in store order, rows in index order. -/
def expectedItems (w : World) (required : List Nat) : List (Nat × Nat) :=
  (w.archetypes.filter (fun a => required.all (fun c => a.has_component c))).flatMap
    (fun a => (List.range a.entities.length).map (fun r => (a.id, r)))

/-- Store well-formedness: every slot either records its own index as id (the
store writes `storage[id] = Archetype::new(id)`) or is one of the
empty-signature placeholder slots `resize_with` creates. -/
def WellFormedStore (w : World) : Prop :=
  ∀ i, (h : i < w.archetypes.length) →
    (w.archetypes.get ⟨i, h⟩).id = i ∨ (w.archetypes.get ⟨i, h⟩).components = []

end Query


theorem alookup_aerase_ne {κ ν : Type} [DecidableEq κ] (l : List (κ × ν)) (k k' : κ)
    (h : k ≠ k') : alookup (aerase l k) k' = alookup l k' := by
  induction l with
  | nil => rfl
  | cons p rest ih =>
    obtain ⟨a, b⟩ := p
    by_cases hp : a = k
    · subst hp
      have hk : ¬ (a = k') := fun hc => h hc
      simp [aerase, List.filter_cons, alookup, hk] at ih ⊢
      simpa [aerase] using ih
    · simp only [aerase, List.filter_cons, decide_eq_false hp, Bool.not_false, if_true] at ih ⊢
      simp only [alookup]
      by_cases ha : a = k'
      · simp [ha]
      · simp [ha, ih]

theorem alookup_aerase_self {κ ν : Type} [DecidableEq κ] (l : List (κ × ν)) (k : κ) :
    alookup (aerase l k) k = none := by
  induction l with
  | nil => rfl
  | cons p rest ih =>
    obtain ⟨a, b⟩ := p
    by_cases hp : a = k
    · subst hp
      simpa [aerase, List.filter_cons] using ih
    · simp only [aerase, List.filter_cons, decide_eq_false hp, Bool.not_false, if_true] at ih ⊢
      simpa [alookup, hp] using ih

theorem alookup_ainsert_self {κ ν : Type} [DecidableEq κ] (l : List (κ × ν)) (k : κ) (v : ν) :
    alookup (ainsert l k v) k = some v := by
  simp [ainsert, alookup]

theorem alookup_ainsert_ne {κ ν : Type} [DecidableEq κ] (l : List (κ × ν)) (k k' : κ) (v : ν)
    (h : k ≠ k') : alookup (ainsert l k v) k' = alookup l k' := by
  simp only [ainsert, alookup, h, if_false]
  exact alookup_aerase_ne l k k' h

theorem getD_dropLast_of_lt (l : List (List Nat)) (i : Nat) (h : i < l.length - 1) :
    l.dropLast.getD i [] = l.getD i [] := by
  have h1 : l.dropLast[i]? = l[i]? := by
    rw [List.dropLast_eq_take, List.getElem?_take_of_lt h]
  simp [List.getD_eq_getElem?_getD, h1]

theorem getD_set_ne (l : List (List Nat)) (i j : Nat) (v : List Nat) (h : i ≠ j) :
    (l.set i v).getD j [] = l.getD j [] := by
  have h1 : (l.set i v)[j]? = l[j]? := by
    rw [List.getElem?_set]
    simp [h]
  simp [List.getD_eq_getElem?_getD, h1]

theorem getD_set_self (l : List (List Nat)) (i : Nat) (v : List Nat) (h : i < l.length) :
    (l.set i v).getD i [] = v := by
  have h1 : (l.set i v)[i]? = some v := by
    rw [List.getElem?_set]
    simp [h]
  simp [List.getD_eq_getElem?_getD, h1]

/-- **C5.** Column swap-remove semantics: for a column of logical length `n`
and a row `r < n`, `swap_remove r` succeeds and yields length `n - 1`; if
`r < n - 1`, row `r` afterwards holds the bytes previously held by row `n - 1`
and every other surviving row is byte-identical to what it was; if `r = n - 1`
(the last row), every surviving row is unchanged. -/
theorem c5_swap_remove_semantics (c : ComponentColumn) (r : Nat)
    (hr : r < c.rows.length) :
    ∃ c', c.swap_remove r = some c' ∧
      c'.rows.length = c.rows.length - 1 ∧
      (r < c.rows.length - 1 → c'.rows.getD r [] = c.rows.getD (c.rows.length - 1) []) ∧
      (∀ j, j < c'.rows.length → j ≠ r → c'.rows.getD j [] = c.rows.getD j []) ∧
      (r = c.rows.length - 1 → ∀ j, j < c'.rows.length → c'.rows.getD j [] = c.rows.getD j []) := by
  by_cases hlast : r = c.rows.length - 1
  · refine ⟨{ c with rows := c.rows.dropLast }, ?_, ?_, ?_, ?_, ?_⟩
    · have hne : ¬ (r ≠ c.rows.length - 1) := by omega
      simp only [ComponentColumn.swap_remove, if_pos hr, hne, if_false]
    · simp
    · intro h
      omega
    · intro j hj _
      simp only [List.length_dropLast] at hj
      exact getD_dropLast_of_lt _ _ hj
    · intro _ j hj
      simp only [List.length_dropLast] at hj
      exact getD_dropLast_of_lt _ _ hj
  · have hlt : r < c.rows.length - 1 := by omega
    refine ⟨{ c with
        rows := (c.rows.set r (c.rows.getD (c.rows.length - 1) [])).dropLast }, ?_, ?_, ?_, ?_, ?_⟩
    · simp only [ComponentColumn.swap_remove, if_pos hr, ne_eq, hlast, not_false_iff, if_true]
    · simp
    · intro _
      rw [getD_dropLast_of_lt _ _ (by simpa using hlt)]
      exact getD_set_self _ _ _ hr
    · intro j hj hne
      simp only [List.length_dropLast, List.length_set] at hj
      rw [getD_dropLast_of_lt _ _ (by simpa using hj)]
      exact getD_set_ne _ _ _ _ (fun h => hne h.symm)
    · intro h
      exact absurd h hlast

/-- Witness for C5 at a concrete column: removing row 0 of a 3-row column
moves row 2's bytes into row 0 and leaves row 1 alone. -/
theorem c5_swap_remove_semantics_witness :
    ∃ c', ComponentColumn.swap_remove ⟨2, [[1, 1], [2, 2], [3, 3]]⟩ 0 = some c' ∧
      c'.rows.length = 2 ∧
      (0 < 2 → c'.rows.getD 0 [] = [3, 3]) ∧
      (∀ j, j < c'.rows.length → j ≠ 0 → c'.rows.getD j [] = ([[1, 1], [2, 2], [3, 3]] : List (List Nat)).getD j []) ∧
      (0 = 2 → ∀ j, j < c'.rows.length → c'.rows.getD j [] = ([[1, 1], [2, 2], [3, 3]] : List (List Nat)).getD j []) := by
  have h := c5_swap_remove_semantics ⟨2, [[1, 1], [2, 2], [3, 3]]⟩ 0 (by decide)
  simpa using h

theorem getElem?_dropLast_of_lt {α : Type} (l : List α) (i : Nat) (h : i < l.length - 1) :
    l.dropLast[i]? = l[i]? := by
  rw [List.dropLast_eq_take, List.getElem?_take_of_lt h]

theorem lt_of_getElem?_eq_some {α : Type} {l : List α} {i : Nat} {x : α}
    (h : l[i]? = some x) : i < l.length := by
  by_contra hc
  rw [List.getElem?_eq_none (by omega)] at h
  exact absurd h (by simp)

theorem getElem?_eq_some_getD {α : Type} (l : List α) (i : Nat) (d : α)
    (h : i < l.length) : l[i]? = some (l.getD i d) := by
  rw [List.getD_eq_getElem?_getD, List.getElem?_eq_getElem h]
  rfl

namespace Mgr

theorem get_or_create_spec {m : ArchetypeManager} {cs : ComponentSet}
    {registry : List ComponentInfo} {m1 : ArchetypeManager} {a : Archetype}
    (h : ArchetypeManager.get_or_create_archetype m cs registry = some (m1, a)) :
    alookup m1.archetypes cs = some a ∧
    (∀ cs', cs' ≠ cs → alookup m1.archetypes cs' = alookup m.archetypes cs') ∧
    m1.entity_locations = m.entity_locations ∧
    (∀ a0, alookup m.archetypes cs = some a0 → m1 = m ∧ a = a0) := by
  cases hl : alookup m.archetypes cs with
  | some a0 =>
    simp only [ArchetypeManager.get_or_create_archetype, hl, Option.some.injEq,
      Prod.mk.injEq] at h
    obtain ⟨hm, ha⟩ := h
    subst hm
    subst ha
    exact ⟨hl, fun _ _ => rfl, rfl, fun a1 h1 => ⟨rfl, Option.some.inj h1⟩⟩
  | none =>
    cases hc : collectTypes registry cs (List.range cs.bits.length) with
    | none =>
      simp [ArchetypeManager.get_or_create_archetype, hl, hc] at h
    | some types =>
      simp only [ArchetypeManager.get_or_create_archetype, hl, hc, Option.some.injEq,
        Prod.mk.injEq] at h
      obtain ⟨hm, ha⟩ := h
      subst hm
      subst ha
      refine ⟨alookup_ainsert_self _ _ _, ?_, rfl, ?_⟩
      · intro cs' hcs
        exact alookup_ainsert_ne _ _ _ _ (fun hk => hcs hk.symm)
      · exact fun a0 h0 => absurd h0 (by simp)

theorem archetype_insert_spec {a : Archetype} {e : Nat} {comps : List (List Nat × Nat)}
    {a1 : Archetype} (h : Archetype.insert a e comps = some a1) :
    a1.entities = a.entities ++ [e] := by
  by_cases hc : comps.length = a.types.length
  · simp only [Archetype.insert, if_pos hc, Option.some.injEq] at h
    subst h
    rfl
  · simp [Archetype.insert, if_neg hc] at h

theorem archetype_remove_spec {a : Archetype} {index : Nat} {a1 : Archetype}
    (h : Archetype.remove a index = some a1) :
    index < a.entities.length ∧
    a1.entities.length = a.entities.length - 1 ∧
    (∀ j, j < a.entities.length - 1 → j ≠ index → a1.entities[j]? = a.entities[j]?) ∧
    (index < a.entities.length - 1 →
      a1.entities[index]? = a.entities[a.entities.length - 1]?) := by
  by_cases h0 : a.entities.length = 0
  · simp only [Archetype.remove, if_pos h0] at h
    exact absurd h (by simp)
  by_cases hlast : index = a.entities.length - 1
  · simp only [Archetype.remove, if_neg h0, if_pos hlast, Option.some.injEq] at h
    subst h
    refine ⟨by omega, by simp, ?_, ?_⟩
    · intro j hj _
      exact getElem?_dropLast_of_lt _ _ hj
    · intro hi
      omega
  · by_cases hlt : index < a.entities.length - 1
    · simp only [Archetype.remove, if_neg h0, if_neg hlast, if_pos hlt] at h
      cases hm : a.columns.mapM (fun col => col.swap_remove index) with
      | none => rw [hm] at h; exact absurd h (by simp)
      | some cols =>
        rw [hm] at h
        simp only [Option.some.injEq] at h
        subst h
        have hsetlen : (a.entities.set index (a.entities.getD (a.entities.length - 1) 0)).length
            = a.entities.length := by simp
        refine ⟨by omega, by simp, ?_, ?_⟩
        · intro j hj hne
          have hj2 : j < (a.entities.set index
              (a.entities.getD (a.entities.length - 1) 0)).length - 1 := by omega
          have hne2 : ¬ (index = j) := fun hc => hne hc.symm
          rw [getElem?_dropLast_of_lt _ _ hj2, List.getElem?_set, if_neg hne2]
        · intro _
          have hi2 : index < (a.entities.set index
              (a.entities.getD (a.entities.length - 1) 0)).length - 1 := by omega
          have hlt2 : index < a.entities.length := by omega
          rw [getElem?_dropLast_of_lt _ _ hi2, List.getElem?_set, if_pos rfl, if_pos hlt2]
          exact (getElem?_eq_some_getD _ _ 0 (by omega)).symm
    · simp only [Archetype.remove, if_neg h0, if_neg hlast, if_neg hlt] at h
      exact absurd h (by simp)

theorem insert_preserves {registry : List ComponentInfo} {m : ArchetypeManager} {e : Nat}
    {cs : ComponentSet} {comps : List (List Nat × Nat)} {m1 : ArchetypeManager}
    (hInv : LocOk m) (h : ArchetypeManager.insert m e cs comps registry = some m1) :
    LocOk m1 := by
  cases hg : ArchetypeManager.get_or_create_archetype m cs registry with
  | none => simp [ArchetypeManager.insert, hg] at h
  | some pair =>
    obtain ⟨mg, a⟩ := pair
    obtain ⟨hga, hgo, hgl, hgsame⟩ := get_or_create_spec hg
    cases hi : Archetype.insert a e comps with
    | none => simp [ArchetypeManager.insert, hg, hi] at h
    | some a1 =>
      have ha1 : a1.entities = a.entities ++ [e] := archetype_insert_spec hi
      simp only [ArchetypeManager.insert, hg, hi, Option.some.injEq] at h
      subst h
      intro e' cs' i' hlook
      by_cases he' : e = e'
      · subst he'
        rw [alookup_ainsert_self] at hlook
        obtain ⟨hcs, hi'⟩ := Prod.mk.inj (Option.some.inj hlook)
        subst hcs
        subst hi'
        refine ⟨a1, alookup_ainsert_self _ _ _, ?_⟩
        rw [ha1]
        simp
      · rw [alookup_ainsert_ne _ _ _ _ he', hgl] at hlook
        obtain ⟨a0, ha0, he0⟩ := hInv e' cs' i' hlook
        by_cases hcs : cs' = cs
        · subst hcs
          obtain ⟨hmg, haa⟩ := hgsame a0 ha0
          subst hmg
          subst haa
          refine ⟨a1, alookup_ainsert_self _ _ _, ?_⟩
          rw [ha1, List.getElem?_append_left (lt_of_getElem?_eq_some he0)]
          exact he0
        · refine ⟨a0, ?_, he0⟩
          rw [alookup_ainsert_ne _ _ _ _ (fun hk => hcs hk.symm), hgo cs' hcs]
          exact ha0

theorem remove_preserves {m : ArchetypeManager} {e : Nat} {m1 : ArchetypeManager}
    (hInv : LocOk m) (h : ArchetypeManager.remove_entity m e = some m1) : LocOk m1 := by
  cases hl : alookup m.entity_locations e with
  | none =>
    simp only [ArchetypeManager.remove_entity, hl, Option.some.injEq] at h
    subst h
    exact hInv
  | some loc =>
    obtain ⟨cs, index⟩ := loc
    obtain ⟨a, ha, he⟩ := hInv e cs index hl
    cases hr : Archetype.remove a index with
    | none => simp [ArchetypeManager.remove_entity, hl, ha, hr] at h
    | some a1 =>
      obtain ⟨hidx, hlen, hother, hmoved⟩ := archetype_remove_spec hr
      by_cases hp : index < a1.entities.length
      · simp only [ArchetypeManager.remove_entity, hl, ha, hr, if_pos hp,
          Option.some.injEq] at h
        subst h
        have hip : index < a.entities.length - 1 := by omega
        have hm' : a1.entities[index]? = a.entities[a.entities.length - 1]? := hmoved hip
        have hLget : a.entities[a.entities.length - 1]? =
            some (a.entities.getD (a.entities.length - 1) 0) :=
          getElem?_eq_some_getD _ _ _ (by omega)
        have hmv : a1.entities[index]? = some (a1.entities.getD index 0) :=
          getElem?_eq_some_getD _ _ _ hp
        have hmoved_eq : a1.entities.getD index 0 = a.entities.getD (a.entities.length - 1) 0 :=
          Option.some.inj (hmv.symm.trans (hm'.trans hLget))
        intro e' cs' i' hlook
        by_cases hme : a1.entities.getD index 0 = e'
        · rw [hme] at hlook
          rw [alookup_ainsert_self] at hlook
          obtain ⟨hcs, hi'⟩ := Prod.mk.inj (Option.some.inj hlook)
          subst hcs
          subst hi'
          refine ⟨a1, alookup_ainsert_self _ _ _, ?_⟩
          rw [← hme, hmv]
        · rw [alookup_ainsert_ne _ _ _ _ hme] at hlook
          by_cases hee : e = e'
          · subst hee
            rw [alookup_aerase_self] at hlook
            exact absurd hlook (by simp)
          · rw [alookup_aerase_ne _ _ _ hee] at hlook
            obtain ⟨a0, ha0, he0⟩ := hInv e' cs' i' hlook
            by_cases hcs : cs' = cs
            · subst hcs
              have haa : a0 = a := Option.some.inj (ha0.symm.trans ha)
              rw [haa] at he0
              have hi'ne : i' ≠ index := by
                intro hcontra
                rw [hcontra] at he0
                exact hee (Option.some.inj (he.symm.trans he0))
              have hi'last : i' ≠ a.entities.length - 1 := by
                intro hcontra
                rw [hcontra] at he0
                apply hme
                rw [hmoved_eq]
                exact Option.some.inj (hLget.symm.trans he0)
              have hi'lt : i' < a.entities.length - 1 := by
                have := lt_of_getElem?_eq_some he0
                omega
              refine ⟨a1, alookup_ainsert_self _ _ _, ?_⟩
              rw [hother i' hi'lt hi'ne]
              exact he0
            · refine ⟨a0, ?_, he0⟩
              rw [alookup_ainsert_ne _ _ _ _ (fun hk => hcs hk.symm)]
              exact ha0
      · simp only [ArchetypeManager.remove_entity, hl, ha, hr, if_neg hp,
          Option.some.injEq] at h
        subst h
        intro e' cs' i' hlook
        by_cases hee : e = e'
        · subst hee
          rw [alookup_aerase_self] at hlook
          exact absurd hlook (by simp)
        · rw [alookup_aerase_ne _ _ _ hee] at hlook
          obtain ⟨a0, ha0, he0⟩ := hInv e' cs' i' hlook
          by_cases hcs : cs' = cs
          · subst hcs
            have haa : a0 = a := Option.some.inj (ha0.symm.trans ha)
            rw [haa] at he0
            have hi'ne : i' ≠ index := by
              intro hcontra
              rw [hcontra] at he0
              exact hee (Option.some.inj (he.symm.trans he0))
            have hi'lt : i' < a.entities.length - 1 := by
              have := lt_of_getElem?_eq_some he0
              omega
            refine ⟨a1, alookup_ainsert_self _ _ _, ?_⟩
            rw [hother i' hi'lt hi'ne]
            exact he0
          · refine ⟨a0, ?_, he0⟩
            rw [alookup_ainsert_ne _ _ _ _ (fun hk => hcs hk.symm)]
            exact ha0

theorem locok_new : LocOk ArchetypeManager.new := by
  intro e cs i h
  exact absurd h (by simp [ArchetypeManager.new, alookup])

theorem applyOps_preserves {registry : List ComponentInfo} :
    ∀ (ops : List Op) (m0 m : ArchetypeManager), LocOk m0 →
      applyOps registry m0 ops = some m → LocOk m := by
  intro ops
  induction ops with
  | nil =>
    intro m0 m h0 h
    simp only [applyOps, Option.some.injEq] at h
    subst h
    exact h0
  | cons op rest ih =>
    intro m0 m h0 h
    cases hop : applyOp registry m0 op with
    | none => simp [applyOps, hop] at h
    | some m' =>
      simp only [applyOps, hop] at h
      have hInv' : LocOk m' := by
        cases op with
        | insert e cs comps => exact insert_preserves h0 hop
        | remove e => exact remove_preserves h0 hop
      exact ih m' m hInv' h

end Mgr

/-- **C1.** Entity-location consistency: for every sequence of
spawn / add-component / remove-entity operations executed from a fresh
`ArchetypeManager` (each completing without a fatal assertion), every entity
with a recorded `EntityLocation` is stored at exactly that archetype and row:
the archetype's entity list holds that entity at that index. -/
theorem c1_entity_location_consistency (registry : List Mgr.ComponentInfo)
    (ops : List Mgr.Op) (m : Mgr.ArchetypeManager)
    (h : Mgr.applyOps registry Mgr.ArchetypeManager.new ops = some m) : Mgr.LocOk m :=
  Mgr.applyOps_preserves ops Mgr.ArchetypeManager.new m Mgr.locok_new h

/-- Witness for C1: after spawning entity 1 with the 4-byte component, the
resulting concrete manager satisfies the location invariant. -/
theorem c1_entity_location_consistency_witness :
    Mgr.LocOk
      ⟨[(⟨[true]⟩, ⟨[⟨0, 4, 4⟩], [⟨4, [[7, 7, 7, 7]]⟩], [1], ⟨[true]⟩⟩)],
       [(1, (⟨[true]⟩, 0))]⟩ :=
  c1_entity_location_consistency Mgr.reg10 [Mgr.Op.insert 1 Mgr.set10 Mgr.data10] _ (by decide)

/-- **C10 counterexample.** Removing the same entity twice is *not* always
the same as removing it once: after `base10` the manager holds entity 2 at
row 0 with a stale duplicate of entity 2 in the last row, so the first
`remove_entity 2` re-records a location for entity 2 (the swap-remove patch
sees the stale duplicate) and a second removal changes the state again. -/
theorem c10_remove_twice_counterexample :
    Mgr.applyOps Mgr.reg10 Mgr.ArchetypeManager.new (Mgr.base10 ++ [.remove 2, .remove 2]) ≠
      Mgr.applyOps Mgr.reg10 Mgr.ArchetypeManager.new (Mgr.base10 ++ [.remove 2]) := by
  decide

/-- **C10 (amended).** Removing an entity with no recorded `EntityLocation`
leaves the manager state entirely unchanged and does not abort; and removing
the same entity twice equals removing it once *provided* the first removal
leaves the entity without a recorded location (which the counterexample shows
can fail when the entity occupies several rows of its archetype). -/
theorem c10_remove_nonlive_noop (m : Mgr.ArchetypeManager) (e : Nat) :
    (alookup m.entity_locations e = none → Mgr.ArchetypeManager.remove_entity m e = some m) ∧
    (∀ m1, Mgr.ArchetypeManager.remove_entity m e = some m1 →
      alookup m1.entity_locations e = none →
      (Mgr.ArchetypeManager.remove_entity m e).bind
          (fun x => Mgr.ArchetypeManager.remove_entity x e) =
        Mgr.ArchetypeManager.remove_entity m e) := by
  constructor
  · intro h
    unfold Mgr.ArchetypeManager.remove_entity
    rw [h]
  · intro m1 h1 h2
    rw [h1]
    simp only [Option.some_bind]
    rw [show Mgr.ArchetypeManager.remove_entity m1 e = some m1 by
      unfold Mgr.ArchetypeManager.remove_entity
      rw [h2]]

/-- Witness for the amended C10 at a concrete input: removing entity 0 from
the fresh manager (no recorded location) is a no-op. -/
theorem c10_remove_nonlive_noop_witness :
    Mgr.ArchetypeManager.remove_entity Mgr.ArchetypeManager.new 0 =
      some Mgr.ArchetypeManager.new :=
  (c10_remove_nonlive_noop Mgr.ArchetypeManager.new 0).1 (by decide)

namespace Graph

theorem sortIds_length (l : List Nat) : (sortIds l).length = l.length :=
  (List.perm_insertionSort _ l).length_eq

theorem sortIds_sorted (l : List Nat) : (sortIds l).Sorted (· ≤ ·) :=
  List.sorted_insertionSort _ l

theorem sortIds_perm (l : List Nat) : List.Perm (sortIds l) l :=
  List.perm_insertionSort _ l

theorem sortIds_of_sorted {l : List Nat} (h : l.Sorted (· ≤ ·)) : sortIds l = l :=
  List.eq_of_perm_of_sorted (sortIds_perm l) (sortIds_sorted l) h

theorem sortIds_eq_of_perm {l1 l2 : List Nat} (h : List.Perm l1 l2) :
    sortIds l1 = sortIds l2 :=
  List.eq_of_perm_of_sorted ((sortIds_perm l1).trans (h.trans (sortIds_perm l2).symm))
    (sortIds_sorted l1) (sortIds_sorted l2)

theorem gocF_congr {cs1 cs2 : List Nat} (fuel : Nat) (g : ArchetypeGraph)
    (h : sortIds cs1 = sortIds cs2) : gocF fuel g cs1 = gocF fuel g cs2 := by
  cases fuel with
  | zero => rfl
  | succ fuel => simp only [gocF, h]

/-- Fuel sufficiency for the edge loop. -/
theorem gocEdgesGo_total (fuel : Nat)
    (ihf : ∀ g cs, cs.length < fuel → gocF fuel g cs ≠ none)
    (new_id : Nat) (signature : List Nat) :
    ∀ (idxs : List Nat) (g : ArchetypeGraph),
      (∀ i ∈ idxs, (signature.eraseIdx i).length < fuel) →
      gocEdgesGo (gocF fuel) new_id signature idxs g ≠ none := by
  intro idxs
  induction idxs with
  | nil => intro g _ h; exact absurd h (by simp [gocEdgesGo])
  | cons i rest ih =>
    intro g hlen h
    cases hf : gocF fuel g (signature.eraseIdx i) with
    | none => exact ihf g _ (hlen i (by simp)) hf
    | some p =>
      obtain ⟨g2, sid⟩ := p
      simp only [gocEdgesGo, hf] at h
      exact ih _ (fun j hj => hlen j (by simp [hj])) h

/-- Fuel `> components.length` always suffices. -/
theorem gocF_total : ∀ (fuel : Nat) (g : ArchetypeGraph) (cs : List Nat),
    cs.length < fuel → gocF fuel g cs ≠ none := by
  intro fuel
  induction fuel with
  | zero => intro g cs h; omega
  | succ fuel ih =>
    intro g cs hlen h
    simp only [gocF] at h
    cases hlook : alookup g.by_signature (sortIds cs) with
    | some id => rw [hlook] at h; exact absurd h (by simp)
    | none =>
      rw [hlook] at h
      cases hloop : gocEdgesGo (gocF fuel) g.signatures.length (sortIds cs)
          (List.range (sortIds cs).length)
          { g with
            by_signature := ainsert g.by_signature (sortIds cs) g.signatures.length
            signatures := g.signatures ++ [sortIds cs] } with
      | none =>
        refine gocEdgesGo_total fuel (fun g' cs' h' => ih g' cs' h') _ _ _ _ ?_ hloop
        intro i hi
        have hi' : i < (sortIds cs).length := List.mem_range.mp hi
        have h1 : ((sortIds cs).eraseIdx i).length = (sortIds cs).length - 1 :=
          List.length_eraseIdx_of_lt hi'
        have h2 : (sortIds cs).length = cs.length := sortIds_length cs
        omega
      | some g2 => rw [hloop] at h; exact absurd h (by simp)

theorem gocEdgesGo_bysig_mono (f : ArchetypeGraph → List Nat → Option (ArchetypeGraph × Nat))
    (hf : ∀ g cs g' id, f g cs = some (g', id) → BySigMono g g')
    (new_id : Nat) (signature : List Nat) :
    ∀ (idxs : List Nat) (g g' : ArchetypeGraph),
      gocEdgesGo f new_id signature idxs g = some g' → BySigMono g g' := by
  intro idxs
  induction idxs with
  | nil =>
    intro g g' h
    simp only [gocEdgesGo, Option.some.injEq] at h
    subst h
    exact fun s v hv => hv
  | cons i rest ih =>
    intro g g' h
    cases hfc : f g (signature.eraseIdx i) with
    | none => simp [gocEdgesGo, hfc] at h
    | some p =>
      obtain ⟨g2, sid⟩ := p
      simp only [gocEdgesGo, hfc] at h
      intro s v hv
      exact ih _ _ h s v (hf g _ g2 sid hfc s v hv)

theorem gocF_bysig_mono : ∀ (fuel : Nat) (g : ArchetypeGraph) (cs : List Nat)
    (g' : ArchetypeGraph) (id : Nat),
    gocF fuel g cs = some (g', id) → BySigMono g g' := by
  intro fuel
  induction fuel with
  | zero => intro g cs g' id h; simp [gocF] at h
  | succ fuel ih =>
    intro g cs g' id h
    simp only [gocF] at h
    cases hlook : alookup g.by_signature (sortIds cs) with
    | some id0 =>
      rw [hlook] at h
      simp only [Option.some.injEq, Prod.mk.injEq] at h
      obtain ⟨hg, _⟩ := h
      subst hg
      exact fun s v hv => hv
    | none =>
      rw [hlook] at h
      cases hloop : gocEdgesGo (gocF fuel) g.signatures.length (sortIds cs)
          (List.range (sortIds cs).length)
          { g with
            by_signature := ainsert g.by_signature (sortIds cs) g.signatures.length
            signatures := g.signatures ++ [sortIds cs] } with
      | none => rw [hloop] at h; exact absurd h (by simp)
      | some g2 =>
        rw [hloop] at h
        simp only [Option.some.injEq, Prod.mk.injEq] at h
        obtain ⟨hg, _⟩ := h
        subst hg
        intro s v hv
        have hs : s ≠ sortIds cs := by
          intro hc
          rw [hc, hlook] at hv
          exact absurd hv (by simp)
        have hv1 : alookup (ainsert g.by_signature (sortIds cs) g.signatures.length) s
            = some v := by
          rw [alookup_ainsert_ne _ _ _ _ (fun hk => hs hk.symm)]
          exact hv
        exact gocEdgesGo_bysig_mono (gocF fuel) (fun a b c d he => ih a b c d he) _ _ _ _ _
          hloop s v hv1

theorem gocF_lookup_result (fuel : Nat) (g : ArchetypeGraph) (cs : List Nat)
    (g' : ArchetypeGraph) (id : Nat) (h : gocF fuel g cs = some (g', id)) :
    alookup g'.by_signature (sortIds cs) = some id := by
  cases fuel with
  | zero => simp [gocF] at h
  | succ fuel =>
    simp only [gocF] at h
    cases hlook : alookup g.by_signature (sortIds cs) with
    | some id0 =>
      rw [hlook] at h
      simp only [Option.some.injEq, Prod.mk.injEq] at h
      obtain ⟨hg, hid⟩ := h
      subst hg
      subst hid
      exact hlook
    | none =>
      rw [hlook] at h
      cases hloop : gocEdgesGo (gocF fuel) g.signatures.length (sortIds cs)
          (List.range (sortIds cs).length)
          { g with
            by_signature := ainsert g.by_signature (sortIds cs) g.signatures.length
            signatures := g.signatures ++ [sortIds cs] } with
      | none => rw [hloop] at h; exact absurd h (by simp)
      | some g2 =>
        rw [hloop] at h
        simp only [Option.some.injEq, Prod.mk.injEq] at h
        obtain ⟨hg, hid⟩ := h
        subst hg
        subst hid
        exact gocEdgesGo_bysig_mono (gocF fuel)
          (fun a b c d he => gocF_bysig_mono fuel a b c d he) _ _ _ _ _ hloop _ _
          (alookup_ainsert_self _ _ _)

theorem goc_eq_of_gocF {g : ArchetypeGraph} {cs : List Nat} {p : ArchetypeGraph × Nat}
    (h : gocF (cs.length + 1) g cs = some p) : get_or_create_archetype g cs = p := by
  simp [get_or_create_archetype, h]

theorem goc_some (g : ArchetypeGraph) (cs : List Nat) :
    gocF (cs.length + 1) g cs = some (get_or_create_archetype g cs) := by
  cases h : gocF (cs.length + 1) g cs with
  | none => exact absurd h (gocF_total _ g cs (by omega))
  | some p => rw [goc_eq_of_gocF h]

theorem GMono.rfl (g : ArchetypeGraph) : GMono g g :=
  ⟨fun _ _ h => h, fun _ _ h => h, fun _ _ h => h, fun _ _ h => h⟩

theorem GMono.trans {g1 g2 g3 : ArchetypeGraph} (h1 : GMono g1 g2) (h2 : GMono g2 g3) :
    GMono g1 g3 :=
  ⟨fun s v h => h2.bysig s v (h1.bysig s v h),
   fun i s h => h2.sigs i s (h1.sigs i s h),
   fun k v h => h2.add k v (h1.add k v h),
   fun k v h => h2.rem k v (h1.rem k v h)⟩

theorem GMono.length_le {g g' : ArchetypeGraph} (h : GMono g g') :
    g.signatures.length ≤ g'.signatures.length := by
  cases hl : g.signatures.length with
  | zero => omega
  | succ n =>
    have h1 : g.signatures[n]? = some g.signatures[n] :=
      List.getElem?_eq_getElem (by omega)
    have h2 := lt_of_getElem?_eq_some (h.sigs n _ h1)
    omega

theorem EdgesComplete.mono {g g' : ArchetypeGraph} {id : Nat} {sig : List Nat}
    (hm : GMono g g') (h : EdgesComplete g id sig) : EdgesComplete g' id sig := by
  intro i hi
  obtain ⟨sid, h1, h2, h3⟩ := h i hi
  exact ⟨sid, hm.bysig _ _ h1, hm.add _ _ h2, hm.rem _ _ h3⟩

theorem perm_get_cons_eraseIdx (l : List Nat) (i : Nat) (h : i < l.length) :
    List.Perm l (l.get ⟨i, h⟩ :: l.eraseIdx i) := by
  have h1 : List.Perm l (l[i] :: l.erase l[i]) :=
    List.perm_cons_erase (List.getElem_mem h)
  have h2 : List.Perm (l.erase l[i]) (l.eraseIdx i) := List.erase_getElem h
  exact h1.trans (h2.cons _)

theorem eraseIdx_sorted {l : List Nat} (h : l.Sorted (· ≤ ·)) (i : Nat) :
    (l.eraseIdx i).Sorted (· ≤ ·) :=
  h.sublist (List.eraseIdx_sublist l i)

theorem sortIds_cons_eraseIdx {S : List Nat} (hS : S.Sorted (· ≤ ·)) (i : Nat)
    (h : i < S.length) : sortIds (S.get ⟨i, h⟩ :: S.eraseIdx i) = S :=
  List.eq_of_perm_of_sorted
    ((sortIds_perm _).trans (perm_get_cons_eraseIdx S i h).symm) (sortIds_sorted _) hS

theorem mem_of_getElem?_signatures {g : ArchetypeGraph} {i : Nat} {s : List Nat}
    (h : g.signatures[i]? = some s) : s ∈ g.signatures := by
  have hb := lt_of_getElem?_eq_some h
  have := List.getElem?_eq_getElem hb
  rw [this] at h
  exact (Option.some.inj h) ▸ List.getElem_mem hb

/-- Inserting the two edges for one loop iteration preserves the invariants:
a collision on an edge key can only re-insert the value the key already had,
because stored signatures are sorted and deduplicated. -/
theorem edge_insert_ok {g2 : ArchetypeGraph} {new_id sid c : Nat} {S smaller : List Nat}
    (hS2 : g2.signatures[new_id]? = some S)
    (hsm : g2.signatures[sid]? = some smaller)
    (hins : sortIds (c :: smaller) = S)
    (hSig : SigOk g2) (hE : EdgeOk g2) :
    SigOk { g2 with
        add_component_edges := ainsert g2.add_component_edges ((sid, c)) new_id
        remove_component_edges := ainsert g2.remove_component_edges ((new_id, c)) sid } ∧
    EdgeOk { g2 with
        add_component_edges := ainsert g2.add_component_edges ((sid, c)) new_id
        remove_component_edges := ainsert g2.remove_component_edges ((new_id, c)) sid } ∧
    GMono g2 { g2 with
        add_component_edges := ainsert g2.add_component_edges ((sid, c)) new_id
        remove_component_edges := ainsert g2.remove_component_edges ((new_id, c)) sid } := by
  have hsmsort : smaller.Sorted (· ≤ ·) := hSig.sorted _ (mem_of_getElem?_signatures hsm)
  refine ⟨⟨hSig.lookup_getElem, hSig.getElem_lookup, hSig.sorted⟩, ⟨?_, ?_⟩, ?_, ?_, ?_, ?_⟩
  · -- add_sound for the extended map
    intro x d y hxy
    by_cases hk : ((sid, c) : Nat × Nat) = (x, d)
    · obtain ⟨h1, h2⟩ := Prod.mk.inj hk
      subst h1
      subst h2
      rw [alookup_ainsert_self] at hxy
      have hy : y = new_id := (Option.some.inj hxy).symm
      subst hy
      exact ⟨smaller, S, hsm, hS2, hins.symm⟩
    · rw [alookup_ainsert_ne _ _ _ _ hk] at hxy
      exact hE.add_sound x d y hxy
  · -- rem_sound for the extended map
    intro x d y hxy
    by_cases hk : ((new_id, c) : Nat × Nat) = (x, d)
    · obtain ⟨h1, h2⟩ := Prod.mk.inj hk
      subst h1
      subst h2
      rw [alookup_ainsert_self] at hxy
      have hy : y = sid := (Option.some.inj hxy).symm
      subst hy
      exact ⟨smaller, S, hsm, hS2, hins.symm⟩
    · rw [alookup_ainsert_ne _ _ _ _ hk] at hxy
      exact hE.rem_sound x d y hxy
  · exact fun s v h => h
  · exact fun i s h => h
  · -- add edges monotone: an overwrite re-inserts the same value
    intro k v hk
    by_cases hkey : ((sid, c) : Nat × Nat) = k
    · subst hkey
      obtain ⟨ssig0, tsig0, hs0, ht0, heq0⟩ := hE.add_sound sid c v hk
      have hss : ssig0 = smaller := Option.some.inj (hs0.symm.trans hsm)
      subst hss
      rw [heq0, hins] at ht0
      have hv : v = new_id := by
        have l1 := hSig.getElem_lookup _ _ ht0
        have l2 := hSig.getElem_lookup _ _ hS2
        exact Option.some.inj (l1.symm.trans l2)
      subst hv
      rw [alookup_ainsert_self]
    · rw [alookup_ainsert_ne _ _ _ _ hkey]
      exact hk
  · -- remove edges monotone
    intro k v hk
    by_cases hkey : ((new_id, c) : Nat × Nat) = k
    · subst hkey
      obtain ⟨ssig0, tsig0, hs0, ht0, heq0⟩ := hE.rem_sound new_id c v hk
      have htS : tsig0 = S := Option.some.inj (ht0.symm.trans hS2)
      subst htS
      have hsort0 : ssig0.Sorted (· ≤ ·) := hSig.sorted _ (mem_of_getElem?_signatures hs0)
      have hperm : List.Perm ssig0 smaller := by
        have p1 : List.Perm (c :: ssig0) (c :: smaller) := by
          have e : sortIds (c :: ssig0) = sortIds (c :: smaller) := heq0.symm.trans hins.symm
          have q := sortIds_perm (c :: smaller)
          rw [← e] at q
          exact (sortIds_perm (c :: ssig0)).symm.trans q
        exact p1.cons_inv
      have hss : ssig0 = smaller := List.eq_of_perm_of_sorted hperm hsort0 hsmsort
      subst hss
      have hv : v = sid := by
        have l1 := hSig.getElem_lookup _ _ hs0
        have l2 := hSig.getElem_lookup _ _ hsm
        exact Option.some.inj (l1.symm.trans l2)
      subst hv
      rw [alookup_ainsert_self]
    · rw [alookup_ainsert_ne _ _ _ _ hkey]
      exact hk

theorem getElem?_append_single {α : Type} (l : List α) (x : α) (i : Nat) :
    (l ++ [x])[i]? = if i < l.length then l[i]? else if i = l.length then some x else none := by
  by_cases h1 : i < l.length
  · rw [List.getElem?_append_left h1, if_pos h1]
  · rw [if_neg h1]
    by_cases h2 : i = l.length
    · subst h2
      simp
    · rw [if_neg h2, List.getElem?_eq_none ?_]
      simp only [List.length_append, List.length_singleton]
      omega

/-- Allocating a fresh signature entry (memo insert plus `signatures` push)
preserves the invariants. -/
theorem create_g1_ok {g : ArchetypeGraph} {S : List Nat} (hSsort : S.Sorted (· ≤ ·))
    (hnone : alookup g.by_signature S = none) (hSig : SigOk g) (hE : EdgeOk g) :
    SigOk { g with by_signature := ainsert g.by_signature S g.signatures.length
                   signatures := g.signatures ++ [S] } ∧
    EdgeOk { g with by_signature := ainsert g.by_signature S g.signatures.length
                    signatures := g.signatures ++ [S] } ∧
    GMono g { g with by_signature := ainsert g.by_signature S g.signatures.length
                     signatures := g.signatures ++ [S] } ∧
    (g.signatures ++ [S])[g.signatures.length]? = some S := by
  have happ : ∀ (i : Nat) (s : List Nat), g.signatures[i]? = some s →
      (g.signatures ++ [S])[i]? = some s := by
    intro i s hs
    rw [List.getElem?_append_left (lt_of_getElem?_eq_some hs)]
    exact hs
  have hlast : (g.signatures ++ [S])[g.signatures.length]? = some S := by simp
  refine ⟨⟨?_, ?_, ?_⟩, ⟨?_, ?_⟩, ⟨?_, ?_, fun _ _ h => h, fun _ _ h => h⟩, hlast⟩
  · intro s i hsi
    by_cases hsS : S = s
    · subst hsS
      rw [alookup_ainsert_self] at hsi
      rw [← Option.some.inj hsi]
      exact hlast
    · rw [alookup_ainsert_ne _ _ _ _ hsS] at hsi
      exact happ i s (hSig.lookup_getElem s i hsi)
  · intro i s hsi
    rw [getElem?_append_single] at hsi
    by_cases h1 : i < g.signatures.length
    · rw [if_pos h1] at hsi
      have hsS : S ≠ s := by
        intro hc
        have hl2 := hSig.getElem_lookup i s hsi
        rw [← hc, hnone] at hl2
        exact absurd hl2 (by simp)
      rw [alookup_ainsert_ne _ _ _ _ hsS]
      exact hSig.getElem_lookup i s hsi
    · rw [if_neg h1] at hsi
      by_cases h2 : i = g.signatures.length
      · rw [if_pos h2] at hsi
        have hs : s = S := (Option.some.inj hsi).symm
        subst hs
        rw [h2, alookup_ainsert_self]
      · rw [if_neg h2] at hsi
        exact absurd hsi (by simp)
  · intro s hs
    rcases List.mem_append.mp hs with h1 | h1
    · exact hSig.sorted s h1
    · rw [List.mem_singleton.mp h1]
      exact hSsort
  · intro x d y hxy
    obtain ⟨ssig, tsig, h1, h2, h3⟩ := hE.add_sound x d y hxy
    exact ⟨ssig, tsig, happ _ _ h1, happ _ _ h2, h3⟩
  · intro x d y hxy
    obtain ⟨ssig, tsig, h1, h2, h3⟩ := hE.rem_sound x d y hxy
    exact ⟨ssig, tsig, happ _ _ h1, happ _ _ h2, h3⟩
  · intro s v hv
    have hsS : S ≠ s := by
      intro hc
      rw [hc] at hnone
      rw [hnone] at hv
      exact absurd hv (by simp)
    rw [alookup_ainsert_ne _ _ _ _ hsS]
    exact hv
  · exact happ

theorem gocEdgesGo_spec (fuel : Nat) (ihf : GocSpec fuel) (new_id : Nat) (S : List Nat)
    (hSsort : S.Sorted (· ≤ ·)) :
    ∀ (idxs : List Nat) (g g' : ArchetypeGraph),
      SigOk g → EdgeOk g → g.signatures[new_id]? = some S →
      (∀ i ∈ idxs, i < S.length) →
      gocEdgesGo (gocF fuel) new_id S idxs g = some g' →
      SigOk g' ∧ EdgeOk g' ∧ GMono g g' ∧
      (∀ i, i ∈ idxs → ∀ h : i < S.length, ∃ sid,
        alookup g'.by_signature (S.eraseIdx i) = some sid ∧
        alookup g'.add_component_edges ((sid, S.get ⟨i, h⟩)) = some new_id ∧
        alookup g'.remove_component_edges ((new_id, S.get ⟨i, h⟩)) = some sid) ∧
      (∀ nid nsig, g.signatures.length ≤ nid → g'.signatures[nid]? = some nsig →
        EdgesComplete g' nid nsig) := by
  intro idxs
  induction idxs with
  | nil =>
    intro g g' hSig hE hS hb h
    simp only [gocEdgesGo, Option.some.injEq] at h
    subst h
    refine ⟨hSig, hE, GMono.rfl g, ?_, ?_⟩
    · intro i hi
      exact absurd hi (by simp)
    · intro nid nsig hge hsig
      have := lt_of_getElem?_eq_some hsig
      omega
  | cons i rest ih =>
    intro g g' hSig hE hS hb h
    cases hfc : gocF fuel g (S.eraseIdx i) with
    | none => simp [gocEdgesGo, hfc] at h
    | some p =>
      obtain ⟨g2, sid⟩ := p
      simp only [gocEdgesGo, hfc] at h
      have hiS : i < S.length := hb i (by simp)
      obtain ⟨hSig2, hE2, hM2, hNew2⟩ := ihf g (S.eraseIdx i) g2 sid hSig hE hfc
      have hsmsort : (S.eraseIdx i).Sorted (· ≤ ·) := eraseIdx_sorted hSsort i
      have hlk : alookup g2.by_signature (S.eraseIdx i) = some sid := by
        have := gocF_lookup_result fuel g _ g2 sid hfc
        rwa [sortIds_of_sorted hsmsort] at this
      have hsm2 : g2.signatures[sid]? = some (S.eraseIdx i) := hSig2.lookup_getElem _ _ hlk
      have hS22 : g2.signatures[new_id]? = some S := hM2.sigs _ _ hS
      have hgetD : S.getD i 0 = S.get ⟨i, hiS⟩ := by
        rw [List.getD_eq_getElem?_getD, List.getElem?_eq_getElem hiS]
        rfl
      have hins : sortIds (S.getD i 0 :: S.eraseIdx i) = S := by
        rw [hgetD]
        exact sortIds_cons_eraseIdx hSsort i hiS
      obtain ⟨hSig3, hE3, hM3⟩ := edge_insert_ok hS22 hsm2 hins hSig2 hE2
      have hS3 : ({ g2 with
          add_component_edges := ainsert g2.add_component_edges ((sid, S.getD i 0)) new_id
          remove_component_edges :=
            ainsert g2.remove_component_edges ((new_id, S.getD i 0)) sid :
          ArchetypeGraph }).signatures[new_id]? = some S := hS22
      obtain ⟨hSig4, hE4, hM4, hDone4, hNew4⟩ :=
        ih _ g' hSig3 hE3 hS3 (fun j hj => hb j (by simp [hj])) h
      refine ⟨hSig4, hE4, (hM2.trans hM3).trans hM4, ?_, ?_⟩
      · intro j hj hjS
        rcases List.mem_cons.mp hj with hji | hjr
        · subst hji
          refine ⟨sid, ?_, ?_, ?_⟩
          · exact hM4.bysig _ _ (hM3.bysig _ _ hlk)
          · apply hM4.add
            rw [← hgetD]
            exact alookup_ainsert_self _ _ _
          · apply hM4.rem
            rw [← hgetD]
            exact alookup_ainsert_self _ _ _
        · exact hDone4 j hjr hjS
      · intro nid nsig hge hsig
        by_cases hcase : g2.signatures.length ≤ nid
        · exact hNew4 nid nsig hcase hsig
        · have hnb : nid < g2.signatures.length := by omega
          have h2s : g2.signatures[nid]? = some g2.signatures[nid] :=
            List.getElem?_eq_getElem hnb
          have hpres : g'.signatures[nid]? = some g2.signatures[nid] :=
            hM4.sigs _ _ h2s
          have hnn : nsig = g2.signatures[nid] := Option.some.inj (hsig.symm.trans hpres)
          have hC2 : EdgesComplete g2 nid nsig := hNew2 nid nsig hge (hnn ▸ h2s)
          exact hC2.mono (hM3.trans hM4)

theorem gocF_spec : ∀ fuel, GocSpec fuel := by
  intro fuel
  induction fuel with
  | zero => intro g cs g' id hSig hE h; simp [gocF] at h
  | succ fuel ih =>
    intro g cs g' id hSig hE h
    simp only [gocF] at h
    cases hlook : alookup g.by_signature (sortIds cs) with
    | some id0 =>
      rw [hlook] at h
      simp only [Option.some.injEq, Prod.mk.injEq] at h
      obtain ⟨hg, hid⟩ := h
      subst hg
      subst hid
      refine ⟨hSig, hE, GMono.rfl g, ?_⟩
      intro nid nsig hge hsig
      have := lt_of_getElem?_eq_some hsig
      omega
    | none =>
      rw [hlook] at h
      obtain ⟨hSig1, hE1, hM1, hS1⟩ := create_g1_ok (sortIds_sorted cs) hlook hSig hE
      cases hloop : gocEdgesGo (gocF fuel) g.signatures.length (sortIds cs)
          (List.range (sortIds cs).length)
          { g with
            by_signature := ainsert g.by_signature (sortIds cs) g.signatures.length
            signatures := g.signatures ++ [sortIds cs] } with
      | none => rw [hloop] at h; exact absurd h (by simp)
      | some g2 =>
        rw [hloop] at h
        simp only [Option.some.injEq, Prod.mk.injEq] at h
        obtain ⟨hg, hid⟩ := h
        subst hg
        subst hid
        obtain ⟨hSig2, hE2, hM2, hDone, hNew⟩ :=
          gocEdgesGo_spec fuel ih g.signatures.length (sortIds cs) (sortIds_sorted cs)
            (List.range (sortIds cs).length) _ g2 hSig1 hE1 hS1
            (fun i hi => List.mem_range.mp hi) hloop
        refine ⟨hSig2, hE2, hM1.trans hM2, ?_⟩
        intro nid nsig hge hsig
        by_cases hnid : nid = g.signatures.length
        · subst hnid
          have hSg2 : g2.signatures[g.signatures.length]? = some (sortIds cs) :=
            hM2.sigs _ _ hS1
          have hnsig : nsig = sortIds cs := Option.some.inj (hsig.symm.trans hSg2)
          subst hnsig
          intro i hiS
          exact hDone i (List.mem_range.mpr hiS) hiS
        · refine hNew nid nsig ?_ hsig
          have hlen1 : (g.signatures ++ [sortIds cs]).length = g.signatures.length + 1 := by
            simp
          simp only [hlen1]
          omega

theorem sigOk_empty : SigOk ArchetypeGraph.empty := by
  refine ⟨?_, ?_, ?_⟩
  · intro s i h
    exact absurd h (by simp [ArchetypeGraph.empty, alookup])
  · intro i s h
    exact absurd h (by simp [ArchetypeGraph.empty])
  · intro s h
    exact absurd h (by simp [ArchetypeGraph.empty])

theorem edgeOk_empty : EdgeOk ArchetypeGraph.empty := by
  constructor
  · intro x d y h
    exact absurd h (by simp [ArchetypeGraph.empty, alookup])
  · intro x d y h
    exact absurd h (by simp [ArchetypeGraph.empty, alookup])

theorem complete_empty : Complete ArchetypeGraph.empty := by
  intro id sig h
  exact absurd h (by simp [ArchetypeGraph.empty])

theorem applyCalls_invariant : ∀ (calls : List (List Nat)) (g : ArchetypeGraph),
    SigOk g → EdgeOk g → Complete g →
    SigOk (applyCalls g calls) ∧ EdgeOk (applyCalls g calls) ∧ Complete (applyCalls g calls) := by
  intro calls
  induction calls with
  | nil => intro g h1 h2 h3; exact ⟨h1, h2, h3⟩
  | cons cs rest ih =>
    intro g h1 h2 h3
    have hgoc := goc_some g cs
    obtain ⟨hSig', hE', hM', hNew'⟩ :=
      gocF_spec (cs.length + 1) g cs (get_or_create_archetype g cs).1
        (get_or_create_archetype g cs).2 h1 h2 hgoc
    have hC' : Complete (get_or_create_archetype g cs).1 := by
      intro id sig hsig
      by_cases hb : id < g.signatures.length
      · have h0 : g.signatures[id]? = some g.signatures[id] := List.getElem?_eq_getElem hb
        have hpres : (get_or_create_archetype g cs).1.signatures[id]? =
            some g.signatures[id] := hM'.sigs _ _ h0
        have heq : sig = g.signatures[id] := Option.some.inj (hsig.symm.trans hpres)
        exact heq ▸ ((h3 id _ h0).mono hM')
      · exact hNew' id sig (by omega) hsig
    exact ih _ hSig' hE' hC'

theorem reaches_of_complete {g : ArchetypeGraph} (hSig : SigOk g) (hC : Complete g) :
    ∀ (n : Nat) (sig : List Nat) (id : Nat), sig.length ≤ n →
      g.signatures[id]? = some sig → ReachesFromEmpty g id := by
  intro n
  induction n with
  | zero =>
    intro sig id hlen hsig
    have hnil : sig = [] := List.length_eq_zero.mp (by omega)
    subst hnil
    exact ReachesFromEmpty.base id (hSig.getElem_lookup id [] hsig)
  | succ n ih =>
    intro sig id hlen hsig
    cases sig with
    | nil => exact ReachesFromEmpty.base id (hSig.getElem_lookup id [] hsig)
    | cons c rest =>
      obtain ⟨sid, hlook, hadd, _⟩ := hC id _ hsig 0 (by simp)
      have hsid : g.signatures[sid]? = some ((c :: rest).eraseIdx 0) :=
        hSig.lookup_getElem _ _ hlook
      have hreach : ReachesFromEmpty g sid := by
        refine ih ((c :: rest).eraseIdx 0) sid ?_ hsid
        simp only [List.eraseIdx_cons_zero]
        simpa using hlen
      exact ReachesFromEmpty.step sid ((c :: rest).get ⟨0, by simp⟩) id hreach hadd

end Graph

/-- **C4.** Archetype-graph edge invariant and reachability: after any
sequence of `get_or_create_archetype` calls on a fresh graph, every created
archetype (signature stored at index `id`) has, for every position `i` of its
sorted signature, a stored archetype for the signature with element `i`
removed, a forward add-edge from that smaller archetype keyed by the `i`-th
component back to `id`, and a backward remove-edge from `id` to the smaller
archetype; and every created archetype is reachable from the empty-signature
archetype through a chain of single-component add-edges. -/
theorem c4_graph_edge_invariant_and_reachability (calls : List (List Nat)) (id : Nat)
    (sig : List Nat)
    (h : (Graph.applyCalls Graph.ArchetypeGraph.empty calls).signatures[id]? = some sig) :
    Graph.EdgesComplete (Graph.applyCalls Graph.ArchetypeGraph.empty calls) id sig ∧
    Graph.ReachesFromEmpty (Graph.applyCalls Graph.ArchetypeGraph.empty calls) id := by
  obtain ⟨hSig, hE, hC⟩ :=
    Graph.applyCalls_invariant calls Graph.ArchetypeGraph.empty Graph.sigOk_empty
      Graph.edgeOk_empty Graph.complete_empty
  exact ⟨hC id sig h, Graph.reaches_of_complete hSig hC sig.length sig id (by omega) h⟩

/-- Witness for C4: after one call creating the archetype for `[0, 1]`
(allocated id 0), that archetype has its full edge set and is reachable from
the empty archetype. -/
theorem c4_graph_edge_invariant_and_reachability_witness :
    Graph.EdgesComplete (Graph.applyCalls Graph.ArchetypeGraph.empty [[0, 1]]) 0 [0, 1] ∧
    Graph.ReachesFromEmpty (Graph.applyCalls Graph.ArchetypeGraph.empty [[0, 1]]) 0 :=
  c4_graph_edge_invariant_and_reachability [[0, 1]] 0 [0, 1] (by decide)

/-- **C6 counterexample.** Two component-id sequences containing the same
*set* of components need not map to the same `ArchetypeId`: the graph
canonicalizes by sorting only (no deduplication), so from a fresh graph the
sequence `[0]` gets one archetype while `[0, 0]` (same set `{0}`) allocates a
second one. -/
theorem c6_same_set_counterexample :
    ([0, 0] : List Nat).toFinset = ([0] : List Nat).toFinset ∧
    (Graph.get_or_create_archetype
        (Graph.get_or_create_archetype Graph.ArchetypeGraph.empty [0]).1 [0, 0]).2 ≠
      (Graph.get_or_create_archetype Graph.ArchetypeGraph.empty [0]).2 := by
  constructor
  · decide
  · decide

/-- **C6 (amended).** Archetype-graph determinism holds for *permutations*
(same multiset): two sequences that are permutations of one another, from any
prior graph state, resolve to identical results, and re-requesting the
permuted sequence after the first call returns the identity allocated the
first time with the graph unchanged (no second archetype is created). -/
theorem c6_graph_permutation_determinism (g : Graph.ArchetypeGraph) (cs1 cs2 : List Nat)
    (hperm : List.Perm cs1 cs2) :
    Graph.get_or_create_archetype g cs1 = Graph.get_or_create_archetype g cs2 ∧
    Graph.get_or_create_archetype (Graph.get_or_create_archetype g cs1).1 cs2 =
      Graph.get_or_create_archetype g cs1 := by
  have hsort : Graph.sortIds cs1 = Graph.sortIds cs2 := Graph.sortIds_eq_of_perm hperm
  have hlen : cs1.length = cs2.length := hperm.length_eq
  constructor
  · unfold Graph.get_or_create_archetype
    rw [hlen, Graph.gocF_congr (cs2.length + 1) g hsort]
  · have h1 := Graph.goc_some g cs1
    have hres : alookup (Graph.get_or_create_archetype g cs1).1.by_signature
        (Graph.sortIds cs2) = some (Graph.get_or_create_archetype g cs1).2 := by
      rw [← hsort]
      exact Graph.gocF_lookup_result _ _ _ _ _ h1
    have hstep : Graph.gocF (cs2.length + 1) (Graph.get_or_create_archetype g cs1).1 cs2
        = some (Graph.get_or_create_archetype g cs1) := by
      simp only [Graph.gocF, hres]
    exact Graph.goc_eq_of_gocF hstep

/-- **C3.** Split-borrow safety of the entity move: with distinct in-bounds
source and target identities, the split-at-max borrow selects exactly the
storage element at the source identity as source and the element at the
target identity as target (two distinct positions, never the same element
twice); with equal identities the operation aborts (slice index out of
bounds, a fatal contract violation) instead of aliasing one archetype. -/
theorem c3_move_entity_split_borrow {α : Type} (storage : List α) (src tgt : Nat)
    (hs : src < storage.length) (ht : tgt < storage.length) :
    (src ≠ tgt → ∃ a b, storage[src]? = some a ∧ storage[tgt]? = some b ∧
      Store.move_entity_select storage src tgt = some (a, b)) ∧
    (src = tgt → Store.move_entity_select storage src tgt = none) := by
  have hsplit : Store.split_at storage (max src tgt) =
      some (storage.take (max src tgt), storage.drop (max src tgt)) := by
    unfold Store.split_at
    rw [if_pos (by omega)]
  constructor
  · intro hne
    by_cases hlt : src < tgt
    · have hmax : max src tgt = tgt := Nat.max_eq_right (by omega)
      refine ⟨storage[src], storage[tgt], List.getElem?_eq_getElem hs,
        List.getElem?_eq_getElem ht, ?_⟩
      unfold Store.move_entity_select
      rw [hsplit, hmax]
      have h1 : (storage.take tgt)[src]? = some storage[src] := by
        rw [List.getElem?_take_of_lt hlt]
        exact List.getElem?_eq_getElem hs
      have h2 : (storage.drop tgt)[0]? = some storage[tgt] := by
        rw [List.getElem?_drop]
        simp only [Nat.add_zero]
        exact List.getElem?_eq_getElem ht
      simp only [if_pos hlt, h1, h2]
    · have hgt : tgt < src := by omega
      have hmax : max src tgt = src := Nat.max_eq_left (by omega)
      refine ⟨storage[src], storage[tgt], List.getElem?_eq_getElem hs,
        List.getElem?_eq_getElem ht, ?_⟩
      unfold Store.move_entity_select
      rw [hsplit, hmax]
      have h1 : (storage.drop src)[0]? = some storage[src] := by
        rw [List.getElem?_drop]
        simp only [Nat.add_zero]
        exact List.getElem?_eq_getElem hs
      have h2 : (storage.take src)[tgt]? = some storage[tgt] := by
        rw [List.getElem?_take_of_lt hgt]
        exact List.getElem?_eq_getElem ht
      simp only [if_neg hlt, h1, h2]
  · intro heq
    subst heq
    have hmax : max src src = src := Nat.max_self src
    unfold Store.move_entity_select
    rw [hsplit, hmax]
    have h1 : (storage.take src)[src]? = none := by
      rw [List.getElem?_eq_none]
      simp
    have h2 : (storage.drop src)[0]? = some storage[src] := by
      rw [List.getElem?_drop]
      simp only [Nat.add_zero]
      exact List.getElem?_eq_getElem hs
    simp only [if_neg (by omega : ¬ src < src), h1, h2]

/-- Witness for C3 on a concrete two-element storage: moving from archetype 0
to archetype 1 borrows element 0 as source and element 1 as target, and the
equal-identity call aborts. -/
theorem c3_move_entity_split_borrow_witness :
    ((0 : Nat) ≠ 1 → ∃ a b, (([10, 20] : List Nat))[0]? = some a ∧
      ([10, 20] : List Nat)[1]? = some b ∧
      Store.move_entity_select ([10, 20] : List Nat) 0 1 = some (a, b)) ∧
    ((0 : Nat) = 1 → Store.move_entity_select ([10, 20] : List Nat) 0 1 = none) :=
  c3_move_entity_split_borrow [10, 20] 0 1 (by decide) (by decide)

namespace Ent

theorem stateAfter_next (n : Nat) : (stateAfter n).next_index = n % 2 ^ 32 := by
  induction n with
  | zero => simp [stateAfter, EntityManager.new]
  | succ n ih =>
    simp only [stateAfter, EntityManager.spawn, ih]
    rw [Nat.mod_add_mod]

theorem issuedIndex_eq (n : Nat) : issuedIndex n = n % 2 ^ 32 := by
  simp only [issuedIndex, EntityManager.spawn, stateAfter_next]

end Ent

/-- **C9 counterexample.** Entity indices are *not* strictly increasing for
the whole process lifetime: the `u32` counter wraps, so spawn number `2 ^ 32`
returns the same index as spawn number 0, refuting both strict monotonicity
and uniqueness of handles. -/
theorem c9_spawn_wrap_counterexample :
    Ent.issuedIndex (2 ^ 32) = Ent.issuedIndex 0 ∧
    ¬ (∀ i j : Nat, i < j → Ent.issuedIndex i < Ent.issuedIndex j) := by
  have h32 : Ent.issuedIndex (2 ^ 32) = Ent.issuedIndex 0 := by
    rw [Ent.issuedIndex_eq, Ent.issuedIndex_eq, Nat.mod_self, Nat.zero_mod]
  refine ⟨h32, fun h => ?_⟩
  have := h 0 (2 ^ 32) (by norm_num)
  omega

/-- **C9 (amended).** Entity handle monotonicity and uniqueness hold for the
first `2 ^ 32` spawns: as long as the counter has not wrapped, every spawn
returns an index strictly greater than every earlier one (hence all handles
are distinct). -/
theorem c9_spawn_monotonic_below_wrap (i j : Nat) (hij : i < j) (hj : j < 2 ^ 32) :
    Ent.issuedIndex i < Ent.issuedIndex j := by
  rw [Ent.issuedIndex_eq, Ent.issuedIndex_eq, Nat.mod_eq_of_lt (by omega),
    Nat.mod_eq_of_lt hj]
  exact hij

/-- Witness for the amended C9: the second spawn's index exceeds the
first's. -/
theorem c9_spawn_monotonic_below_wrap_witness : Ent.issuedIndex 0 < Ent.issuedIndex 1 :=
  c9_spawn_monotonic_below_wrap 0 1 (by decide) (by norm_num)

namespace Sched

theorem foldl_execute (q : List Command) (w0 : World) :
    q.foldl (fun acc c => Command.execute c acc) w0 =
      { resources := drainSpec q w0.resources, command_queue := w0.command_queue } := by
  induction q generalizing w0 with
  | nil => simp [drainSpec]
  | cons c rest ih =>
    cases c with
    | create_resource i v =>
      rw [List.foldl_cons, ih]
      simp [drainSpec, Command.execute]

theorem flush_commands_drains (w : World) :
    World.flush_commands w =
      { resources := drainSpec w.command_queue w.resources, command_queue := [] } := by
  unfold World.flush_commands
  by_cases he : w.command_queue.isEmpty
  · rw [if_pos he]
    have hq : w.command_queue = [] := by
      cases hw : w.command_queue with
      | nil => rfl
      | cons c rest => rw [hw] at he; simp at he
    cases w with
    | mk res q =>
      simp only at hq
      subst hq
      simp [drainSpec]
  · rw [if_neg he, foldl_execute]

theorem runLoop_after_each (systems : List FunctionSystem) (w : World) :
    runLoop .after_each systems w = runEachSpec systems w := by
  induction systems generalizing w with
  | nil => rfl
  | cons s rest ih =>
    simp only [runLoop, runEachSpec]
    cases hr : FunctionSystem.run s w with
    | mk s1 r =>
      cases r with
      | error e => rfl
      | ok w1 =>
        simp [ih]

theorem runLoop_after_all (systems : List FunctionSystem) (w : World) :
    runLoop .after_all systems w = runPlain systems w := by
  induction systems generalizing w with
  | nil => rfl
  | cons s rest ih =>
    simp only [runLoop, runPlain]
    cases hr : FunctionSystem.run s w with
    | mk s1 r =>
      cases r with
      | error e => rfl
      | ok w1 =>
        have hne : ¬ ((CommandFlushTechnique.after_all : CommandFlushTechnique)
            = .after_each) := by decide
        simp [if_neg hne, ih]

end Sched

/-- **C7.** Schedule order and flush policy: `Systems::run` executes the
registered systems in list (registration) order; under `AfterEach` the
world's command queue is drained after each system's run, under `AfterAll`
(the `#[default]` technique) it is drained once after all systems have run;
and draining executes every queued command against the world in FIFO order
(a left fold over the queue) leaving the queue empty. -/
theorem c7_schedule_order_and_flush_policy (systems : List Sched.FunctionSystem)
    (w : Sched.World) :
    Sched.Systems.run .after_each systems w = Sched.runEachSpec systems w ∧
    Sched.Systems.run .after_all systems w = Sched.runAllSpec systems w ∧
    Sched.default_flush_technique = .after_all ∧
    (∀ w' : Sched.World, Sched.World.flush_commands w' =
      { resources := Sched.drainSpec w'.command_queue w'.resources, command_queue := [] }) := by
  refine ⟨?_, ?_, rfl, Sched.flush_commands_drains⟩
  · unfold Sched.Systems.run
    rw [Sched.runLoop_after_each]
    cases hr : Sched.runEachSpec systems w with
    | mk ss r =>
      cases r with
      | error e => rfl
      | ok w1 =>
        have hne : ¬ ((Sched.CommandFlushTechnique.after_each :
            Sched.CommandFlushTechnique) = .after_all) := by decide
        simp only [if_neg hne]
  · unfold Sched.Systems.run Sched.runAllSpec
    rw [Sched.runLoop_after_all]
    cases hr : Sched.runPlain systems w with
    | mk ss r =>
      cases r with
      | error e => rfl
      | ok w1 => simp

/-- **C8 counterexample.** When a function system's body fails, the schedule
does *not* continue: `FunctionSystem::run` panics (embedded as the error
value carrying the system's name and message), so `Systems::run` aborts —
the second system is never initialized or run and no flush happens, contrary
to the claim that the rest of the schedule's processing proceeds. -/
theorem c8_error_continues_counterexample :
    (Sched.Systems.run .after_all [errSys, okSys] ⟨[], []⟩).2 =
      .error ⟨"failing-system", "boom"⟩ ∧
    ((Sched.Systems.run .after_all [errSys, okSys] ⟨[], []⟩).1.map
      (fun s => s.state_initialized)) = [true, false] := by
  constructor
  · rfl
  · rfl

/-- **C8 (amended).** A function system whose fallible body returns an error
halts that system's execution and surfaces the error to the scheduler
together with the system's identity (name) and message, with the system's
state initialized at that point; but instead of continuing, the schedule
aborts: the remaining systems are left untouched (not initialized, not run)
and no command flush happens. -/
theorem c8_error_reported_and_schedule_aborts (t : Sched.CommandFlushTechnique)
    (s : Sched.FunctionSystem) (rest : List Sched.FunctionSystem) (w : Sched.World)
    (e : String) (h : (Sched.FunctionSystem.setup s).body w = .error e) :
    Sched.Systems.run t (s :: rest) w =
      (Sched.FunctionSystem.setup s :: rest,
        .error ⟨(Sched.FunctionSystem.setup s).name, e⟩) ∧
    (Sched.FunctionSystem.setup s).state_initialized = true := by
  constructor
  · have hrun : Sched.FunctionSystem.run s w =
        (Sched.FunctionSystem.setup s,
          .error ⟨(Sched.FunctionSystem.setup s).name, e⟩) := by
      simp only [Sched.FunctionSystem.run, h]
    simp only [Sched.Systems.run, Sched.runLoop, hrun]
  · unfold Sched.FunctionSystem.setup
    by_cases hi : s.state_initialized
    · rw [if_pos hi]
      exact hi
    · rw [if_neg hi]

/-- Witness for the amended C8: the concrete failing schedule aborts with the
system's identity attached. -/
theorem c8_error_reported_and_schedule_aborts_witness :
    Sched.Systems.run .after_all [errSys] ⟨[], []⟩ =
      (Sched.FunctionSystem.setup errSys :: [],
        .error ⟨(Sched.FunctionSystem.setup errSys).name, "boom"⟩) ∧
    (Sched.FunctionSystem.setup errSys).state_initialized = true :=
  (by
    have h := c8_error_reported_and_schedule_aborts .after_all errSys [] ⟨[], []⟩ "boom" rfl
    exact h)

namespace Query

theorem drain_some_unfold (w : World) (required : List Nat) (remaining : List Nat)
    (f len row : Nat) :
    drain w required remaining (some f) len row =
      if row < len then
        (drain w required remaining (some f) len (row + 1)).map
          (fun items => (f, row) :: items)
      else
        match remaining with
        | [] => some []
        | id :: rest =>
          match w.archetypes[id]? with
          | none => none
          | some a =>
            let f1 := new_fetch required a
            if f1.isSome then drain w required rest f1 a.len 0
            else drain w required rest f1 len row := by
  rw [drain.eq_def]

theorem drain_none_unfold (w : World) (required : List Nat) (remaining : List Nat)
    (len row : Nat) :
    drain w required remaining none len row =
      match remaining with
      | [] => some []
      | id :: rest =>
        match w.archetypes[id]? with
        | none => none
        | some a =>
          let f1 := new_fetch required a
          if f1.isSome then drain w required rest f1 a.len 0
          else drain w required rest f1 len row := by
  rw [drain.eq_def]

theorem drain_stop (w : World) (required : List Nat) (rest : List Nat) (f len row : Nat)
    (h : ¬ row < len) :
    drain w required rest (some f) len row = drain w required rest none len row := by
  rw [drain_some_unfold, if_neg h, drain_none_unfold]

theorem drain_yield_run (w : World) (required : List Nat) (rest : List Nat) :
    ∀ (n len f row : Nat), len - row = n → row ≤ len →
      drain w required rest (some f) len row =
        (drain w required rest none len len).map
          (fun items => (List.range' row (len - row)).map (fun r => (f, r)) ++ items) := by
  intro n
  induction n with
  | zero =>
    intro len f row hn hle
    have hrl : row = len := by omega
    subst hrl
    rw [drain_stop _ _ _ _ _ _ (by omega)]
    rw [show row - row = 0 from by omega]
    cases hd : drain w required rest none row row with
    | none => rfl
    | some items => simp [List.range'_zero]
  | succ n ihn =>
    intro len f row hn hle
    have hlt : row < len := by omega
    rw [show drain w required rest (some f) len row =
        (drain w required rest (some f) len (row + 1)).map
          (fun items => (f, row) :: items) from by rw [drain_some_unfold, if_pos hlt]]
    rw [ihn len f (row + 1) (by omega) (by omega)]
    cases hd : drain w required rest none len len with
    | none => rfl
    | some items =>
      simp only [Option.map_some']
      rw [show len - row = n + 1 from hn, List.range'_succ,
        show len - (row + 1) = n from by omega]
      simp

theorem drain_none_spec (w : World) (required : List Nat) :
    ∀ (ids : List Nat),
      (∀ id ∈ ids, ∃ a, w.archetypes[id]? = some a ∧
        required.all (fun c => a.has_component c) = true ∧ a.id = id) →
      ∀ len row, drain w required ids none len row = some (ids.flatMap (archRows w)) := by
  intro ids
  induction ids with
  | nil =>
    intro _ len row
    rw [drain_none_unfold]
    simp
  | cons id rest ih =>
    intro hP len row
    obtain ⟨a, ha, hm, hid⟩ := hP id (by simp)
    have hf1 : new_fetch required a = some a.id := by simp [new_fetch, hm]
    have hstep : drain w required (id :: rest) none len row =
        drain w required rest (some a.id) a.len 0 := by
      rw [drain_none_unfold]
      simp only [ha, hf1, Option.isSome_some, if_true]
    rw [hstep, drain_yield_run w required rest a.len a.len a.id 0 (by omega) (by omega),
      ih (fun j hj => hP j (by simp [hj])) a.len a.len]
    simp only [Option.map_some, Option.some.injEq, List.flatMap_cons]
    have hrows : archRows w id = (List.range a.entities.length).map (fun r => (id, r)) := by
      simp [archRows, ha]
    rw [hrows]
    rw [show a.len - 0 = a.len from by omega, List.range_eq_range']
    subst hid
    rfl

theorem flatMap_congr_mem {α β : Type} (l : List α) (f g : α → List β)
    (h : ∀ x ∈ l, f x = g x) : l.flatMap f = l.flatMap g := by
  induction l with
  | nil => rfl
  | cons x rest ih =>
    simp only [List.flatMap_cons]
    rw [h x (by simp), ih (fun y hy => h y (by simp [hy]))]

end Query

/-- **C2.** Query completeness, soundness and order: building a `QueryState`
over required components and iterating it yields exactly one item per row of
exactly those archetypes whose component set contains every required
component, visiting archetypes in store order and rows within an archetype in
index order `0..len`; and when no archetype matches, the query yields no
items.  `WellFormedStore` captures that `Archetypes` stores each archetype at
the index equal to its id (placeholder slots from `resize_with` have empty
component sets and never match a nonempty request). -/
theorem c2_query_exact_rows_in_order (w : Query.World) (required : List Nat)
    (hwf : Query.WellFormedStore w) (hne : required ≠ []) :
    Query.queryItems w required = some (Query.expectedItems w required) ∧
    (w.archetypes.filter (fun a => required.all (fun c => a.has_component c)) = [] →
      Query.queryItems w required = some []) := by
  have hPa : ∀ a, a ∈ w.archetypes.filter
      (fun a => required.all (fun c => a.has_component c)) →
      w.archetypes[a.id]? = some a := by
    intro a hafilter
    obtain ⟨hmem, hmatch⟩ := List.mem_filter.mp hafilter
    obtain ⟨i, hi, hget⟩ := List.mem_iff_getElem.mp hmem
    have hcomp : a.components ≠ [] := by
      cases hreq : required with
      | nil => exact absurd hreq hne
      | cons c cs =>
        rw [hreq] at hmatch
        have hc : a.has_component c = true := List.all_eq_true.mp hmatch c (by simp)
        simp only [Query.Archetype.has_component, decide_eq_true_eq] at hc
        intro hnil
        rw [hnil] at hc
        exact absurd hc (List.not_mem_nil c)
    have haidx : a.id = i := by
      rcases hwf i hi with h1 | h1
      · rw [List.get_eq_getElem, hget] at h1
        exact h1
      · rw [List.get_eq_getElem, hget] at h1
        exact absurd h1 hcomp
    rw [haidx, List.getElem?_eq_getElem hi, hget]
  have hP : ∀ id ∈ Query.QueryState.new w required, ∃ a, w.archetypes[id]? = some a ∧
      required.all (fun c => a.has_component c) = true ∧ a.id = id := by
    intro id hid
    simp only [Query.QueryState.new, List.mem_map] at hid
    obtain ⟨a, hafilter, haid⟩ := hid
    exact ⟨a, haid ▸ hPa a hafilter, (List.mem_filter.mp hafilter).2, haid⟩
  constructor
  · unfold Query.queryItems
    rw [Query.drain_none_spec w required _ hP 0 0]
    congr 1
    unfold Query.QueryState.new Query.expectedItems
    rw [List.flatMap_map]
    refine Query.flatMap_congr_mem _ _ _ ?_
    intro a ha
    have := hPa a ha
    simp [Function.comp, Query.archRows, this]
  · intro hfilter
    unfold Query.queryItems
    rw [Query.drain_none_spec w required _ hP 0 0]
    simp [Query.QueryState.new, hfilter]

/-- Witness for C2 at a concrete store: two archetypes, one matching
`{0, 1}` with two rows — the query yields exactly its two rows in order. -/
theorem c2_query_exact_rows_in_order_witness :
    Query.queryItems ⟨[⟨0, [0, 1], [5, 6]⟩, ⟨1, [0], [7]⟩]⟩ [0, 1] =
      some (Query.expectedItems ⟨[⟨0, [0, 1], [5, 6]⟩, ⟨1, [0], [7]⟩]⟩ [0, 1]) ∧
    ((⟨[⟨0, [0, 1], [5, 6]⟩, ⟨1, [0], [7]⟩]⟩ : Query.World).archetypes.filter
        (fun a => ([0, 1] : List Nat).all (fun c => a.has_component c)) = [] →
      Query.queryItems ⟨[⟨0, [0, 1], [5, 6]⟩, ⟨1, [0], [7]⟩]⟩ [0, 1] = some []) :=
  c2_query_exact_rows_in_order ⟨[⟨0, [0, 1], [5, 6]⟩, ⟨1, [0], [7]⟩]⟩ [0, 1]
    (by unfold Query.WellFormedStore; decide) (by decide)

/-- Witness for the amended C6 at concrete inputs: `[1, 0]` and `[0, 1]` are
permutations and resolve identically from the empty graph. -/
theorem c6_graph_permutation_determinism_witness :
    Graph.get_or_create_archetype Graph.ArchetypeGraph.empty [1, 0] =
      Graph.get_or_create_archetype Graph.ArchetypeGraph.empty [0, 1] ∧
    Graph.get_or_create_archetype
        (Graph.get_or_create_archetype Graph.ArchetypeGraph.empty [1, 0]).1 [0, 1] =
      Graph.get_or_create_archetype Graph.ArchetypeGraph.empty [1, 0] :=
  c6_graph_permutation_determinism Graph.ArchetypeGraph.empty [1, 0] [0, 1] (by decide)

end FluxEcs
